import Mathlib

/-!
Verification of the tree-dangler shape-generation pipeline.

Shallow embedding conventions:
* JS numbers used in exact integer/rational positions are modelled as `ℕ`/`ℚ`;
  the squared-distance arithmetic of the two-pass distance transform is exact
  rational arithmetic (the float rounding of the source is immaterial at the
  small magnitudes the claims touch), and the final `Math.sqrt` is `Real.sqrt`.
* Typed arrays are modelled as total functions `ℕ → _` with the source's
  zero-initialisation; out-of-range indices are never read by the modelled code
  paths.
* The external collaborators (open-simplex noise generator, canvas rasterizer,
  d3 Voronoi cell enumeration, martinez union, bitmap tracer, SVG templater)
  are parameters of the embedding: the code under verification treats them as
  opaque call/return contracts.
-/

namespace TreeDangler

/-! ## distanceField.ts: the 1-D lower-envelope pass (`distanceTransform1D`) -/

/-- `const INF = 1e20` (src/lib/logic/distanceField.ts line 83). -/
def INF : ℚ := 10 ^ 20

/-- The parabola rooted at sample `p`: `(x - p)^2 + f p`.  This is the cost
recorded by the query loop (`output[q] = (q - val) * (q - val) + input[val]`). -/
def parab (f : ℕ → ℚ) (p : ℕ) (x : ℚ) : ℚ := (x - (p : ℚ)) ^ 2 + f p

/-- The intersection abscissa computed inside the build loop:
`s = (input[q] + q*q - (input[p] + p*p)) / (2*q - 2*p)`. -/
def sect (f : ℕ → ℚ) (q p : ℕ) : ℚ :=
  (f q + (q : ℚ) ^ 2 - (f p + (p : ℚ) ^ 2)) / (2 * (q : ℚ) - 2 * (p : ℚ))

/-- Mutable state of the envelope construction: stack top `k`, the index
stack `v` and the boundary array `z` (both zero-initialised typed arrays). -/
structure EnvState where
  k : ℕ
  v : ℕ → ℕ
  z : ℕ → ℚ

/-- The inner `do { ... } while (k >= 0)` loop of the build phase, started at
stack level `k`.  It returns the index at which the new parabola is written
(`k` after the final `k += 1`) together with the last computed `s`.
Exiting with `k = -1` (every comparison popped) re-enters at index 0. -/
def seek (f : ℕ → ℚ) (q : ℕ) (v : ℕ → ℕ) (z : ℕ → ℚ) : ℕ → ℕ × ℚ
  | 0 =>
    let s := sect f q (v 0)
    if s ≤ z 0 then (0, s) else (1, s)
  | k + 1 =>
    let s := sect f q (v (k + 1))
    if s ≤ z (k + 1) then seek f q v z k else (k + 2, s)

/-- One iteration of the `for (q = 1; q < n; ...)` build loop:
run the pop loop, then `v[k] = q; z[k] = s; z[k + 1] = INF`. -/
def insertParab (f : ℕ → ℚ) (st : EnvState) (q : ℕ) : EnvState :=
  let r := seek f q st.v st.z st.k
  { k := r.1
    v := Function.update st.v r.1 q
    z := fun i => if i = r.1 then r.2 else if i = r.1 + 1 then INF else st.z i }

/-- State before the build loop: `k = 0; v[0] = 0; z[0] = -INF; z[1] = INF`,
all other entries still zero-initialised. -/
def initialEnv : EnvState where
  k := 0
  v := fun _ => 0
  z := fun i => if i = 0 then -INF else if i = 1 then INF else 0

/-- The completed envelope after inserting parabolas `1, …, n-1`. -/
def buildEnv (f : ℕ → ℚ) (n : ℕ) : EnvState :=
  (List.range' 1 (n - 1)).foldl (insertParab f) initialEnv

/-- The query-phase advance `while (z[k + 1] < q) k += 1`, with the stop the
source gets from reading past the end of the length-`n+1` array `z`
(an out-of-range read yields `undefined`, and `undefined < q` is false). -/
def advance (n : ℕ) (z : ℕ → ℚ) (x : ℚ) : ℕ → ℕ → ℕ
  | 0, k => k
  | fuel + 1, k => if k + 1 ≤ n ∧ z (k + 1) < x then advance n z x fuel (k + 1) else k

/-- One iteration of the query loop at position `q`, threading the shared `k`. -/
def queryStep (f : ℕ → ℚ) (n : ℕ) (st : EnvState) (acc : ℕ × (ℕ → ℚ)) (q : ℕ) :
    ℕ × (ℕ → ℚ) :=
  let k := advance n st.z (q : ℚ) (n + 1) acc.1
  (k, Function.update acc.2 q (((q : ℚ) - (st.v k : ℚ)) ^ 2 + f (st.v k)))

/-- `distanceTransform1D(input, n, output)`: build the lower envelope, then
answer every query `q = 0, …, n-1`.  The result is the (zero-initialised)
output array as a function. -/
def distanceTransform1D (f : ℕ → ℚ) (n : ℕ) : ℕ → ℚ :=
  ((List.range n).foldl (queryStep f n (buildEnv f n)) (0, fun _ => 0)).2

/-! ## distanceField.ts: the 2-D transform (`computeDistanceField`) -/

/-- `BinaryBitmap`: width, height and the 4-channel byte buffer (`data` is the
byte array; only channel 0 — byte `4*idx` — is ever read). -/
structure BinaryBitmap where
  width : ℕ
  height : ℕ
  data : ℕ → ℕ

/-- Seeding: `initial[idx] = data[idx*4] > 127 ? INF : 0`. -/
def initialOf (bm : BinaryBitmap) : ℕ → ℚ := fun idx =>
  if 127 < bm.data (idx * 4) then INF else 0

/-- The column pass: `temp[y*width+x] = (1-D transform of column x)[y]`. -/
def colPass (w h : ℕ) (initial : ℕ → ℚ) : ℕ → ℚ := fun idx =>
  distanceTransform1D (fun y => initial (y * w + idx % w)) h (idx / w)

/-- The row pass applied to the column pass, i.e. the squared distances the
source holds in `rowOutput` just before taking `Math.sqrt`. -/
def fieldSq (bm : BinaryBitmap) : ℕ → ℚ := fun idx =>
  distanceTransform1D
    (fun x => colPass bm.width bm.height (initialOf bm) (idx / bm.width * bm.width + x))
    bm.width (idx % bm.width)

/-- `output[i] = Math.sqrt(rowOutput[x])`: the Euclidean distance field. -/
noncomputable def field (bm : BinaryBitmap) : ℕ → ℝ := fun idx =>
  Real.sqrt ((fieldSq bm idx : ℚ) : ℝ)

/-- `maxDistance`: the running maximum of the field values.  The source guards
each candidate with `Number.isFinite`; every value of the exact model is a
finite real (the sentinel is `1e20`, not infinity), so the guard is identically
true here, exactly as it is for the sentinel-valued pixels of the source. -/
noncomputable def maxDistance (bm : BinaryBitmap) : ℝ :=
  (List.range (bm.width * bm.height)).foldl
    (fun m i => if m < field bm i then field bm i else m) 0

/-- The `DistanceFieldResult` record returned by `computeDistanceField`. -/
structure DistanceFieldResult where
  dfField : ℕ → ℝ
  dfMax : ℝ

/-- `computeDistanceField(bitmap)`. -/
noncomputable def computeDistanceField (bm : BinaryBitmap) : DistanceFieldResult :=
  { dfField := field bm, dfMax := maxDistance bm }

/-- The invariant of the build loop after parabolas `0, …, m` have been
inserted: the stack indices are increasing, the boundaries `z` are strictly
increasing between the `-INF` and `INF` sentinels, each interior boundary is
the intersection of its parabola with the one below, and on each boundary
interval the stack's parabola is minimal among all parabolas seen so far. -/
structure EnvInv (f : ℕ → ℚ) (m : ℕ) (st : EnvState) : Prop where
  hk : st.k ≤ m
  hv0 : st.v 0 = 0
  hz0 : st.z 0 = -INF
  hztop : st.z (st.k + 1) = INF
  hvmono : ∀ ⦃i j : ℕ⦄, i < j → j ≤ st.k → st.v i < st.v j
  hvle : ∀ ⦃i : ℕ⦄, i ≤ st.k → st.v i ≤ m
  hzmono : ∀ ⦃i : ℕ⦄, i ≤ st.k → st.z i < st.z (i + 1)
  hzsect : ∀ ⦃i : ℕ⦄, 0 < i → i ≤ st.k → st.z i = sect f (st.v i) (st.v (i - 1))
  hcover : ∀ ⦃i : ℕ⦄, i ≤ st.k → ∀ ⦃x : ℚ⦄, st.z i < x → (i = st.k ∨ x ≤ st.z (i + 1)) →
    ∀ ⦃p : ℕ⦄, p ≤ m → parab f (st.v i) x ≤ parab f p x


/-- The candidate cost of seed pixel `(a, b)` for target pixel `idx`:
squared Euclidean distance plus the seed value. -/
def pixelCost (bm : BinaryBitmap) (idx a b : ℕ) : ℚ :=
  (((idx % bm.width : ℕ) : ℚ) - (a : ℚ)) ^ 2 +
    (((idx / bm.width : ℕ) : ℚ) - (b : ℚ)) ^ 2 +
    initialOf bm (b * bm.width + a)

/-! ## voronoiWorker.ts: the Morphology Engine (`runNextComputation`, 105–180)

The comparisons of the source act on the float field (after `Math.sqrt`), so
this layer lives over `ℝ`; the predicates are classical. `mk` stands for the
external `makeNoise2D` of open-simplex-noise: the generator cached for the
request is `mk config.noiseSeed`, a pure function of the seed. -/

/-- The `config` object of a `WorkerRequest`. -/
structure WorkerConfig where
  shrinkThreshold : ℝ
  roundThreshold : ℝ
  noiseAmplitude : ℝ
  noiseSeed : ℤ

/-- `shrinkMask[i] = inward.field[i] >= config.shrinkThreshold ? 1 : 0`
(worker lines 115–118), as the predicate "the entry is 1". -/
def shrinkMask (bm : BinaryBitmap) (cfg : WorkerConfig) (i : ℕ) : Prop :=
  cfg.shrinkThreshold ≤ field bm i

open scoped Classical

/-- The photographic negative `invertedData` (worker lines 120–128): channels
0–2 hold `0` where the shrink mask is set and `255` elsewhere; channel 3 is
opaque. -/
noncomputable def invertedData (bm : BinaryBitmap) (cfg : WorkerConfig) : ℕ → ℕ := fun j =>
  if j % 4 = 3 then 255
  else if shrinkMask bm cfg (j / 4) then 0 else 255

/-- The bitmap handed to the second distance-transform pass (worker 130–134). -/
noncomputable def outwardBitmap (bm : BinaryBitmap) (cfg : WorkerConfig) : BinaryBitmap :=
  ⟨bm.width, bm.height, invertedData bm cfg⟩

/-- Three-octave noise combination (worker lines 140–144). -/
noncomputable def combinedNoise (noise2D : ℝ → ℝ → ℝ) (x y : ℕ) : ℝ :=
  (noise2D ((x : ℝ) * 0.01) ((y : ℝ) * 0.01) +
    noise2D ((x : ℝ) * 0.02 + 100) ((y : ℝ) * 0.02 + 100) * 0.5 +
    noise2D ((x : ℝ) * 0.03 + 200) ((y : ℝ) * 0.03 + 200) * 0.25) / 1.75

/-- `outward.field[i]` after the optional noise perturbation (worker 136–150):
`outward.field[i] = max(0, outward.field[i] + combinedNoise * noiseAmplitude)`
when `noiseAmplitude > 0`, untouched otherwise. -/
noncomputable def perturbedOutward (bm : BinaryBitmap) (cfg : WorkerConfig)
    (mk : ℤ → ℝ → ℝ → ℝ) (i : ℕ) : ℝ :=
  if 0 < cfg.noiseAmplitude then
    max 0 (field (outwardBitmap bm cfg) i +
      combinedNoise (mk cfg.noiseSeed) (i % bm.width) (i / bm.width) * cfg.noiseAmplitude)
  else field (outwardBitmap bm cfg) i

/-- `finalMask[i] = 1` iff `outward.field[i] <= config.roundThreshold`
(worker lines 152–157). -/
def finalKept (bm : BinaryBitmap) (cfg : WorkerConfig) (mk : ℤ → ℝ → ℝ → ℝ)
    (i : ℕ) : Prop :=
  perturbedOutward bm cfg mk i ≤ cfg.roundThreshold

/-- `PX_PER_MM = 5` (src/lib/logic/connectors.ts line 303). -/
noncomputable def PX_PER_MM : ℝ := 5

/-- `mmToPx(mm) = mm * PX_PER_MM`. -/
noncomputable def mmToPx (mm : ℝ) : ℝ := mm * PX_PER_MM

/-- The worker config built by the store (store.tsx lines 204–216):
`shrinkThreshold = roundPx + gapPx / 2`, `roundThreshold = roundPx`. -/
noncomputable def storeConfig (gap rnd noiseAmplitude : ℝ) (noiseSeed : ℤ) : WorkerConfig :=
  { shrinkThreshold := mmToPx rnd + mmToPx gap / 2
    roundThreshold := mmToPx rnd
    noiseAmplitude := noiseAmplitude
    noiseSeed := noiseSeed }

/-- A constant generator (a legal stand-in for the open-simplex contract). -/
noncomputable def mkConst (c : ℝ) : ℤ → ℝ → ℝ → ℝ := fun _ _ _ => c

/-! ## voronoi.ts: per-cell vertex filtering and grouping (lines 94–116) -/

/-- A JS number as classified by `Number.isFinite`: either finite with its
value, or non-finite (`Infinity`, `-Infinity` or `NaN`). -/
inductive JSNum
  | finite (val : ℚ)
  | nonFinite
deriving DecidableEq

/-- The vertex filter (voronoi.ts 100–106): keep, in order, exactly the
vertices with both coordinates finite. -/
def finiteCoords (polygon : List (JSNum × JSNum)) : List (ℚ × ℚ) :=
  polygon.filterMap (fun v =>
    match v with
    | (.finite x, .finite y) => some (x, y)
    | _ => none)

/-- Lines 97–107: a missing cell (`cellPolygon` returned null) contributes
nothing; otherwise the cell contributes its finite vertices, unless none
survive the filter (`if (!coords.length) return`). -/
def cellContribution (cell : Option (List (JSNum × JSNum))) : Option (List (ℚ × ℚ)) :=
  match cell with
  | none => none
  | some polygon =>
    let coords := finiteCoords polygon
    if coords.isEmpty then none else some coords

/-- The `points.forEach` grouping loop (lines 94–116): push each surviving
ring onto `grouped[segmentIds[index]]`, in index order. -/
def groupCells (cells : List (Option (List (JSNum × JSNum))))
    (segmentIds : ℕ → String) : String → List (List (ℚ × ℚ)) :=
  (List.range cells.length).foldl (fun acc i =>
    match cellContribution (cells.getD i none) with
    | none => acc
    | some coords => fun sid =>
        if sid = segmentIds i then acc sid ++ [coords] else acc sid)
    (fun _ => [])

/-! ## voronoiWorker.ts: the queue-collapsing scheduler (lines 41–71, 199–207) -/

/-- The worker's module-level mutable scheduler state, plus the history of
requests whose computation has started (`executed`). -/
structure SchedState (α : Type) where
  isComputing : Bool
  latestPending : Option α
  pendingTimeout : Bool
  executed : List α
deriving DecidableEq

def initSched (α : Type) : SchedState α := ⟨false, none, false, []⟩

/-- `scheduleNextComputation` (lines 47–58): return early if nothing is
pending, a computation is running, or the timer is already set; otherwise set
the debounce timer. -/
def scheduleNext {α : Type} (st : SchedState α) : SchedState α :=
  if st.latestPending.isNone then st
  else if st.isComputing then st
  else if st.pendingTimeout then st
  else { st with pendingTimeout := true }

/-- `runNextComputation` synchronous prefix (lines 66–72): consume the pending
request and mark the computation as started. -/
def runNext {α : Type} (st : SchedState α) : SchedState α :=
  match st.latestPending with
  | none => st
  | some r =>
    { st with
      latestPending := none
      isComputing := true
      executed := st.executed ++ [r] }

inductive SchedEvent (α : Type)
  | message (r : α)
  | timerFire
  | runComplete
deriving DecidableEq

/-- One event-loop step of the worker: `message` is the `onmessage` handler
(lines 60–64: overwrite `latestPending`, then schedule), `timerFire` the
`setTimeout` callback (lines 52–57: clear the timer handle, then run if idle
and something is pending), and `runComplete` the `finally` block (lines
199–207: clear `isComputing`, reschedule if something arrived meanwhile). -/
def schedStep {α : Type} (st : SchedState α) : SchedEvent α → SchedState α
  | .message r => scheduleNext { st with latestPending := some r }
  | .timerFire =>
    if st.pendingTimeout then
      let st' := { st with pendingTimeout := false }
      if ¬ st'.isComputing ∧ st'.latestPending.isSome then runNext st' else st'
    else st
  | .runComplete =>
    if st.isComputing then
      let st' := { st with isComputing := false }
      if st'.latestPending.isSome then scheduleNext st' else st'
    else st

def schedRun {α : Type} (events : List (SchedEvent α)) : SchedState α :=
  events.foldl schedStep (initSched α)

/-! ## store.tsx: the consumer's stale-response discard (`useWorker`, 271–288) -/

/-- A delivered worker response as seen by the consumer. -/
structure WorkerMessage (α : Type) where
  id : ℕ
  payload : α
  error : Bool
deriving DecidableEq

/-- The `onmessage` handler: drop error responses, drop responses whose id is
below `latestCompletedRef.current`, otherwise record the id and apply the
payload.  State: `(latestCompletedRef.current, applied payloads in order)`;
the ref starts at `0`. -/
def consumeStep {α : Type} (st : ℕ × List (ℕ × α)) (r : WorkerMessage α) :
    ℕ × List (ℕ × α) :=
  if r.error then st
  else if r.id < st.1 then st
  else (r.id, st.2 ++ [(r.id, r.payload)])

def consumeAll {α : Type} (rs : List (WorkerMessage α)) : ℕ × List (ℕ × α) :=
  rs.foldl consumeStep (0, [])

/-! ## voronoiWorker.ts: response assembly (lines 77–103, 191–195) -/

/-- The worker's response message. -/
structure WorkerResponseMsg where
  id : ℕ
  piecePolygons : Option (List (List (ℚ × ℚ)))
  svgString : Option String
  error : Option String
deriving DecidableEq

/-- The branch structure of a successfully-running `runNextComputation` body:
an empty tessellation (lines 81–88) or a null rasterizer result (lines 96–103)
both post `{id, piecePolygons: [], svgString: ""}`; otherwise the traced
polygons and the generated SVG are posted (lines 182–195).  The morphology,
tracer and templater stages are abstracted into `previewOf`, `tracer`, `svg`;
they are not consulted on the two early-return paths. -/
def workerSuccessResponse (id : ℕ) (polygons : List (List (ℚ × ℚ)))
    (raster : Option BinaryBitmap)
    (previewOf : BinaryBitmap → BinaryBitmap)
    (tracer : BinaryBitmap → List (List (ℚ × ℚ)))
    (svg : List (List (ℚ × ℚ)) → String) : WorkerResponseMsg :=
  if polygons.isEmpty then ⟨id, some [], some "", none⟩
  else
    match raster with
    | none => ⟨id, some [], some "", none⟩
    | some maskBitmap =>
      let traced := tracer (previewOf maskBitmap)
      ⟨id, some traced, some (svg traced), none⟩

/-- A 1×1 raster whose single pixel is background (a boundary seed). -/
def bm1x1Black : BinaryBitmap := ⟨1, 1, fun _ => 0⟩

/-- A 1×1 raster whose single pixel is foreground (interior). -/
def bm1x1White : BinaryBitmap := ⟨1, 1, fun _ => 255⟩

/-- A 3×1 raster: seed pixels at x = 0 and x = 2 around one interior pixel. -/
def bm3x1 : BinaryBitmap := ⟨3, 1, fun j => if j = 4 then 255 else 0⟩

/-- The worker config of the C1 counterexample:
`shrinkThreshold 0`, `roundThreshold 1`, `noiseAmplitude 10`, seed `0`. -/
noncomputable def cfgC1 : WorkerConfig := ⟨0, 1, 10, 0⟩

/-- The noise-free config used in the C1 witness. -/
noncomputable def cfgC1w : WorkerConfig := ⟨0, 1, 0, 0⟩

/-- A single Voronoi cell with two finite vertices and one non-finite one. -/
def cellsC6 : List (Option (List (JSNum × JSNum))) :=
  [some [(JSNum.finite 0, JSNum.finite 0), (JSNum.finite 1, JSNum.finite 0),
    (JSNum.nonFinite, JSNum.finite 1)]]


/-! ## Correctness of the 1-D lower-envelope pass

We prove that `distanceTransform1D` computes, at every query position
`q < n`, the exact lower envelope `min_{p < n} ((q - p)^2 + f p)`,
for any input whose values are nonnegative and bounded (the sentinel-seeded
inputs of both 2-D passes satisfy the bound). -/

theorem INF_pos : (0 : ℚ) < INF := by norm_num [INF]

theorem two_le_INF : (2 : ℚ) ≤ INF := by norm_num [INF]

/-- For `p < q`, parabola `q` is at or below parabola `p` exactly from their
intersection abscissa onwards. -/
theorem parab_le_iff (f : ℕ → ℚ) {p q : ℕ} (h : p < q) (x : ℚ) :
    parab f q x ≤ parab f p x ↔ sect f q p ≤ x := by
  have hpq : (p : ℚ) < (q : ℚ) := by exact_mod_cast h
  have hd : (0 : ℚ) < 2 * (q : ℚ) - 2 * (p : ℚ) := by linarith
  unfold parab sect
  rw [div_le_iff₀ hd]
  constructor <;> intro h' <;> nlinarith

/-- Strict version of `parab_le_iff`. -/
theorem parab_lt_iff (f : ℕ → ℚ) {p q : ℕ} (h : p < q) (x : ℚ) :
    parab f q x < parab f p x ↔ sect f q p < x := by
  have hpq : (p : ℚ) < (q : ℚ) := by exact_mod_cast h
  have hd : (0 : ℚ) < 2 * (q : ℚ) - 2 * (p : ℚ) := by linarith
  unfold parab sect
  rw [div_lt_iff₀ hd]
  constructor <;> intro h' <;> nlinarith

/-- Intersection abscissas stay strictly inside `(-INF, INF)` for bounded
inputs; this is what keeps the `z[0] = -INF` / `z[k+1] = INF` sentinels of the
source's build loop from ever being crossed. -/
theorem sect_bounds {f : ℕ → ℚ} {n : ℕ} {C : ℚ}
    (Hf : ∀ p, p < n → 0 ≤ f p ∧ f p ≤ C)
    (HC : C + (n : ℚ) ^ 2 < 2 * INF) {p q : ℕ} (hpq : p < q) (hq : q < n) :
    -INF < sect f q p ∧ sect f q p < INF := by
  have hpn : p < n := lt_trans hpq hq
  have hfq := Hf q hq
  have hfp := Hf p hpn
  have hqn : (q : ℚ) < (n : ℚ) := by exact_mod_cast hq
  have hpn' : (p : ℚ) < (n : ℚ) := by exact_mod_cast hpn
  have hq0 : (0 : ℚ) ≤ (q : ℚ) := by positivity
  have hp0 : (0 : ℚ) ≤ (p : ℚ) := by positivity
  have hq2 : (q : ℚ) ^ 2 ≤ (n : ℚ) ^ 2 := by nlinarith
  have hp2 : (p : ℚ) ^ 2 ≤ (n : ℚ) ^ 2 := by nlinarith
  have hpq' : (p : ℚ) < (q : ℚ) := by exact_mod_cast hpq
  have hd : (0 : ℚ) < 2 * (q : ℚ) - 2 * (p : ℚ) := by linarith
  have hd2 : (2 : ℚ) ≤ 2 * (q : ℚ) - 2 * (p : ℚ) := by
    have : (p : ℚ) + 1 ≤ (q : ℚ) := by exact_mod_cast hpq
    linarith
  constructor
  · rw [sect, lt_div_iff₀ hd]
    nlinarith [INF_pos]
  · rw [sect, div_lt_iff₀ hd]
    nlinarith [INF_pos]

theorem EnvInv.z_le {f : ℕ → ℚ} {m : ℕ} {st : EnvState} (inv : EnvInv f m st) :
    ∀ {i j : ℕ}, i ≤ j → j ≤ st.k + 1 → st.z i ≤ st.z j := by
  intro i j hij hj
  obtain ⟨d, rfl⟩ : ∃ d, j = i + d := ⟨j - i, by omega⟩
  clear hij
  induction d with
  | zero => exact le_refl _
  | succ d ih =>
    have hd : i + d ≤ st.k := by omega
    have h1 : st.z i ≤ st.z (i + d) := ih (by omega)
    have h2 : st.z (i + d) < st.z (i + d + 1) := inv.hzmono hd
    calc st.z i ≤ st.z (i + d) := h1
      _ ≤ st.z (i + (d + 1)) := by rw [show i + (d + 1) = i + d + 1 by omega]; exact le_of_lt h2

/-- The invariant holds for the initial state (only parabola `0` present). -/
theorem envInv_initial (f : ℕ → ℚ) : EnvInv f 0 initialEnv where
  hk := le_refl 0
  hv0 := rfl
  hz0 := rfl
  hztop := rfl
  hvmono := by
    intro i j hij hj
    simp only [initialEnv] at hj
    omega
  hvle := by
    intro i hi
    exact le_refl 0
  hzmono := by
    intro i hi
    simp only [initialEnv] at hi ⊢
    interval_cases i
    have := INF_pos
    norm_num
    linarith
  hzsect := by
    intro i hi hik
    simp only [initialEnv] at hik
    omega
  hcover := by
    intro i hi x hx hx' p hp
    simp only [initialEnv] at hi hp
    interval_cases i
    interval_cases p
    simp only [initialEnv]
    exact le_refl _

/-- Specification of the pop loop `seek` started at level `j`: it never
re-enters at index 0 when the intersection with the bottom parabola lies above
`z 0`, it returns the level just above the last surviving entry together with
the intersection `s` against that entry, and every popped level satisfied the
pop condition. -/
theorem seek_spec (f : ℕ → ℚ) (q : ℕ) (v : ℕ → ℕ) (z : ℕ → ℚ)
    (hzs0 : z 0 < sect f q (v 0)) :
    ∀ j, 1 ≤ (seek f q v z j).1 ∧ (seek f q v z j).1 ≤ j + 1 ∧
      (seek f q v z j).2 = sect f q (v ((seek f q v z j).1 - 1)) ∧
      z ((seek f q v z j).1 - 1) < (seek f q v z j).2 ∧
      ∀ l, (seek f q v z j).1 ≤ l → l ≤ j → sect f q (v l) ≤ z l := by
  intro j
  induction j with
  | zero =>
    have hne : ¬ sect f q (v 0) ≤ z 0 := not_le.mpr hzs0
    have hres : seek f q v z 0 = (1, sect f q (v 0)) := by
      simp only [seek, hne, if_false]
    rw [hres]
    exact ⟨le_refl 1, le_refl 1, rfl, hzs0,
      fun l h1 h2 => absurd (le_trans h1 h2) (by omega)⟩
  | succ k ih =>
    by_cases h : sect f q (v (k + 1)) ≤ z (k + 1)
    · have hres : seek f q v z (k + 1) = seek f q v z k := by
        simp only [seek, h, if_true]
      rw [hres]
      obtain ⟨i1, i2, i3, i4, i5⟩ := ih
      refine ⟨i1, le_trans i2 (Nat.le_succ _), i3, i4, ?_⟩
      intro l hl1 hl2
      rcases Nat.lt_or_ge l (k + 1) with hlt | hge
      · exact i5 l hl1 (Nat.lt_succ_iff.mp hlt)
      · have hlk : l = k + 1 := le_antisymm hl2 hge
        rw [hlk]; exact h
    · have hres : seek f q v z (k + 1) = (k + 2, sect f q (v (k + 1))) := by
        simp only [seek, h, if_false]
      rw [hres]
      exact ⟨by omega, le_refl _, rfl, not_le.mp h,
        fun l h1 h2 => absurd (le_trans h1 h2) (by omega)⟩

/-- One build-loop iteration preserves the envelope invariant. -/
theorem envInv_insert {f : ℕ → ℚ} {n : ℕ} {C : ℚ}
    (Hf : ∀ p, p < n → 0 ≤ f p ∧ f p ≤ C)
    (HC : C + (n : ℚ) ^ 2 < 2 * INF)
    {m : ℕ} {st : EnvState} (inv : EnvInv f m st) (hq : m + 1 < n) :
    EnvInv f (m + 1) (insertParab f st (m + 1)) := by
  have hvltq : ∀ ⦃i : ℕ⦄, i ≤ st.k → st.v i < m + 1 :=
    fun i hi => Nat.lt_succ_of_le (inv.hvle hi)
  have hzs0 : st.z 0 < sect f (m + 1) (st.v 0) := by
    have h0 : st.v 0 < m + 1 := hvltq (Nat.zero_le _)
    have hb := (sect_bounds Hf HC h0 hq).1
    rw [inv.hz0]; exact hb
  obtain ⟨h1, h2, h3, h4, h5⟩ := seek_spec f (m + 1) st.v st.z hzs0 st.k
  set J := (seek f (m + 1) st.v st.z st.k).1 with hJdef
  set s := (seek f (m + 1) st.v st.z st.k).2 with hsdef
  have hJ1 : J - 1 ≤ st.k := by omega
  have hsbounds := sect_bounds Hf HC (hvltq hJ1) hq
  have hs1 : -INF < s := by rw [h3]; exact hsbounds.1
  have hs2 : s < INF := by rw [h3]; exact hsbounds.2
  have hzle := @EnvInv.z_le f m st inv
  have hknew : (insertParab f st (m + 1)).k = J := rfl
  have hznew : ∀ i, (insertParab f st (m + 1)).z i =
      if i = J then s else if i = J + 1 then INF else st.z i := fun _ => rfl
  have hvnew : ∀ i, (insertParab f st (m + 1)).v i = Function.update st.v J (m + 1) i :=
    fun _ => rfl
  have hzJ : (insertParab f st (m + 1)).z J = s := by rw [hznew, if_pos rfl]
  have hzJ1 : (insertParab f st (m + 1)).z (J + 1) = INF := by
    rw [hznew, if_neg (by omega), if_pos rfl]
  have hzother : ∀ i, i ≠ J → i ≠ J + 1 → (insertParab f st (m + 1)).z i = st.z i := by
    intro i hi1 hi2; rw [hznew, if_neg hi1, if_neg hi2]
  have hvJ : (insertParab f st (m + 1)).v J = m + 1 := by
    rw [hvnew, Function.update_same]
  have hvother : ∀ i, i ≠ J → (insertParab f st (m + 1)).v i = st.v i := by
    intro i hi1; rw [hvnew, Function.update_noteq hi1]
  -- the boundary popped at level J still dominates s (used for old-interval cover)
  have hsle : J ≤ st.k → s ≤ st.z J := by
    intro hJk
    have hzJs : st.z J = sect f (st.v J) (st.v (J - 1)) := inv.hzsect h1 hJk
    have hvv : st.v (J - 1) < st.v J := inv.hvmono (by omega) hJk
    have hvJq : st.v J < m + 1 := hvltq hJk
    have hvJ1q : st.v (J - 1) < m + 1 := hvltq hJ1
    have he1 : parab f (st.v J) (st.z J) ≤ parab f (st.v (J - 1)) (st.z J) :=
      (parab_le_iff f hvv _).mpr (le_of_eq hzJs.symm)
    have hpop : sect f (m + 1) (st.v J) ≤ st.z J := h5 J (le_refl J) hJk
    have hq1 : parab f (m + 1) (st.z J) ≤ parab f (st.v J) (st.z J) :=
      (parab_le_iff f hvJq _).mpr hpop
    have hq2 := (parab_le_iff f hvJ1q (st.z J)).mp (le_trans hq1 he1)
    rw [← h3] at hq2
    exact hq2
  refine ⟨?_, ?_, ?_, ?_, ?_, ?_, ?_, ?_, ?_⟩
  · rw [hknew]; exact le_trans h2 (Nat.succ_le_succ inv.hk)
  · rw [hvother 0 (by omega)]; exact inv.hv0
  · rw [hzother 0 (by omega) (by omega)]; exact inv.hz0
  · rw [hknew, hzJ1]
  · -- hvmono
    intro i j hij hj
    rw [hknew] at hj
    rcases Nat.lt_or_ge j J with hjJ | hjJ
    · rw [hvother i (by omega), hvother j (by omega)]
      exact inv.hvmono hij (by omega)
    · have hjeq : j = J := le_antisymm hj hjJ
      rw [hjeq, hvJ, hvother i (by omega)]
      exact hvltq (by omega)
  · -- hvle
    intro i hi
    rw [hknew] at hi
    rcases Nat.lt_or_ge i J with hiJ | hiJ
    · rw [hvother i (by omega)]
      exact le_trans (inv.hvle (by omega)) (Nat.le_succ m)
    · have hieq : i = J := le_antisymm hi hiJ
      rw [hieq, hvJ]
  · -- hzmono
    intro i hi
    rw [hknew] at hi
    rcases Nat.lt_or_ge i J with hiJ | hiJ
    · rcases Nat.lt_or_ge (i + 1) J with hi1 | hi1
      · rw [hzother i (by omega) (by omega), hzother (i + 1) (by omega) (by omega)]
        exact inv.hzmono (by omega)
      · have hieq : i + 1 = J := by omega
        rw [hzother i (by omega) (by omega), hieq, hzJ]
        rw [show i = J - 1 by omega]
        exact h4
    · have hieq : i = J := le_antisymm hi hiJ
      rw [hieq, hzJ, show J + 1 = J + 1 from rfl, hzJ1]
      exact hs2
  · -- hzsect
    intro i hipos hi
    rw [hknew] at hi
    rcases Nat.lt_or_ge i J with hiJ | hiJ
    · rw [hzother i (by omega) (by omega), hvother i (by omega), hvother (i - 1) (by omega)]
      exact inv.hzsect hipos (by omega)
    · have hieq : i = J := le_antisymm hi hiJ
      rw [hieq, hzJ, hvJ, hvother (J - 1) (by omega)]
      exact h3
  · -- hcover
    intro i hi x hx hdisj p hp
    rw [hknew] at hi hdisj
    rcases Nat.lt_or_ge i J with hiJ | hiJ
    · -- old interval
      rw [hvother i (by omega)]
      rw [hzother i (by omega) (by omega)] at hx
      have hdisj' : x ≤ (insertParab f st (m + 1)).z (i + 1) := by
        rcases hdisj with he | hle
        · exact absurd he (by omega)
        · exact hle
      have hxs : x ≤ s := by
        rcases Nat.lt_or_ge (i + 1) J with hi1 | hi1
        · rw [hzother (i + 1) (by omega) (by omega)] at hdisj'
          have hchain : st.z (i + 1) ≤ st.z (J - 1) := hzle (by omega) (by omega)
          linarith
        · have hieq1 : i + 1 = J := by omega
          rw [hieq1, hzJ] at hdisj'
          exact hdisj'
      have hik : i ≤ st.k := by omega
      have hcov : ∀ ⦃p' : ℕ⦄, p' ≤ m → parab f (st.v i) x ≤ parab f p' x := by
        intro p' hp'
        refine inv.hcover hik hx ?_ hp'
        rcases Nat.lt_or_ge i st.k with hik' | hik'
        · right
          rcases Nat.lt_or_ge (i + 1) J with hi1 | hi1
          · rw [hzother (i + 1) (by omega) (by omega)] at hdisj'
            exact hdisj'
          · have hieq1 : i + 1 = J := by omega
            have hJk : J ≤ st.k := by omega
            have hzs := hsle hJk
            rw [hieq1]
            exact le_trans hxs hzs
        · left; omega
      rcases eq_or_lt_of_le hp with hpq | hpm
      · -- p is the freshly inserted parabola m + 1
        rw [hpq]
        have hstep : parab f (st.v i) x ≤ parab f (st.v (J - 1)) x := hcov (inv.hvle hJ1)
        have hlast : parab f (st.v (J - 1)) x ≤ parab f (m + 1) x := by
          rcases le_or_lt (parab f (st.v (J - 1)) x) (parab f (m + 1) x) with h | h
          · exact h
          · exfalso
            have hlt := (parab_lt_iff f (hvltq hJ1) x).mp h
            rw [← h3] at hlt
            linarith
        exact le_trans hstep hlast
      · exact hcov (by omega)
    · -- the new top interval
      have hieq : i = J := le_antisymm hi hiJ
      rw [hieq, hvJ]
      rw [hieq, hzJ] at hx
      rcases eq_or_lt_of_le hp with hpq | hpm
      · rw [hpq]
      · have hpm' : p ≤ m := by omega
        have hx0 : st.z 0 < x := by rw [inv.hz0]; linarith
        have hex : ∃ jx, jx ≤ st.k ∧ st.z jx < x ∧
            ∀ l, jx < l → l ≤ st.k → x ≤ st.z l := by
          refine ⟨Nat.findGreatest (fun l => st.z l < x) st.k,
            Nat.findGreatest_le st.k, ?_, ?_⟩
          · exact Nat.findGreatest_spec (P := fun l => st.z l < x) (Nat.zero_le st.k) hx0
          · intro l hl1 hl2
            exact not_lt.mp
              (Nat.findGreatest_is_greatest (P := fun l => st.z l < x) hl1 hl2)
        obtain ⟨jx, hjxk, hPjx, hge⟩ := hex
        have hcov : parab f (st.v jx) x ≤ parab f p x := by
          refine inv.hcover hjxk hPjx ?_ hpm'
          rcases eq_or_lt_of_le hjxk with he | hlt
          · exact Or.inl he
          · exact Or.inr (hge (jx + 1) (Nat.lt_succ_self _) hlt)
        have hconn : parab f (m + 1) x ≤ parab f (st.v jx) x := by
          rcases Nat.lt_or_ge jx J with hjlt | hjge
          · rcases Nat.lt_or_ge jx (J - 1) with hjlt1 | hjge1
            · exfalso
              have hxle : x ≤ st.z (jx + 1) := hge (jx + 1) (Nat.lt_succ_self _) (by omega)
              have hchain : st.z (jx + 1) ≤ st.z (J - 1) := hzle (by omega) (by omega)
              linarith
            · have hjeq : jx = J - 1 := by omega
              rw [hjeq]
              refine (parab_le_iff f (hvltq hJ1) x).mpr ?_
              rw [← h3]
              exact le_of_lt hx
          · have hpopj : sect f (m + 1) (st.v jx) ≤ st.z jx := h5 jx hjge hjxk
            exact (parab_le_iff f (hvltq hjxk) x).mpr (le_trans hpopj (le_of_lt hPjx))
        exact le_trans hconn hcov

/-- The full build loop establishes the invariant for parabolas `0, …, n-1`. -/
theorem envInv_build {f : ℕ → ℚ} {n : ℕ} {C : ℚ}
    (Hf : ∀ p, p < n → 0 ≤ f p ∧ f p ≤ C)
    (HC : C + (n : ℚ) ^ 2 < 2 * INF) (hn : 0 < n) :
    EnvInv f (n - 1) (buildEnv f n) := by
  have key : ∀ m, m ≤ n - 1 →
      EnvInv f m ((List.range' 1 m).foldl (insertParab f) initialEnv) := by
    intro m
    induction m with
    | zero => intro _; exact envInv_initial f
    | succ m ih =>
      intro hm
      have hrange : List.range' 1 (m + 1) = List.range' 1 m ++ [1 + 1 * m] :=
        List.range'_concat 1 m
      rw [hrange, List.foldl_append, List.foldl_cons, List.foldl_nil,
        show 1 + 1 * m = m + 1 by omega]
      exact envInv_insert Hf HC (ih (by omega)) (by omega)
  exact key (n - 1) (le_refl _)

/-- The query-loop advance reaches exactly the least stack level whose upper
boundary is at or above the query value. -/
theorem advance_eq {z : ℕ → ℚ} {x : ℚ} {n T : ℕ}
    (hT1 : x ≤ z (T + 1)) (hTmin : ∀ i, i < T → z (i + 1) < x) (hTn : T + 1 ≤ n) :
    ∀ fuel k₀, k₀ ≤ T → T - k₀ ≤ fuel → advance n z x fuel k₀ = T := by
  intro fuel
  induction fuel with
  | zero =>
    intro k₀ hk hT0
    have hkT : k₀ = T := by omega
    rw [hkT]
    rfl
  | succ fuel ih =>
    intro k₀ hk hfuel
    have hunfold : advance n z x (fuel + 1) k₀ =
        if k₀ + 1 ≤ n ∧ z (k₀ + 1) < x then advance n z x fuel (k₀ + 1) else k₀ := rfl
    rcases eq_or_lt_of_le hk with he | hlt
    · have hstop : ¬ (k₀ + 1 ≤ n ∧ z (k₀ + 1) < x) := by
        rintro ⟨-, hzx⟩
        rw [he] at hzx
        exact absurd hT1 (not_le.mpr hzx)
      rw [hunfold, if_neg hstop, he]
    · have hcond : k₀ + 1 ≤ n ∧ z (k₀ + 1) < x := ⟨by omega, hTmin k₀ hlt⟩
      rw [hunfold, if_pos hcond]
      exact ih (k₀ + 1) (by omega) (by omega)

/-- Invariant of the query loop: the shared `k` never overshoots, every
boundary strictly below it lies below the next query value, and each answered
query holds the value of a stack parabola that is minimal on an interval
containing the query. -/
theorem query_phase {f : ℕ → ℚ} {n : ℕ} {st : EnvState}
    (inv : EnvInv f (n - 1) st) (hn : 0 < n) (hnINF : (n : ℚ) ≤ INF) :
    ∀ j, j ≤ n →
      ((List.range j).foldl (queryStep f n st) (0, fun _ => 0)).1 ≤ st.k ∧
      (∀ i, i < ((List.range j).foldl (queryStep f n st) (0, fun _ => 0)).1 →
        st.z (i + 1) < (j : ℚ)) ∧
      ∀ q, q < j → ∃ i, i ≤ st.k ∧ st.z i < (q : ℚ) ∧ (q : ℚ) ≤ st.z (i + 1) ∧
        ((List.range j).foldl (queryStep f n st) (0, fun _ => 0)).2 q =
          parab f (st.v i) (q : ℚ) := by
  intro j
  induction j with
  | zero =>
    intro _
    refine ⟨Nat.zero_le _, ?_, ?_⟩
    · intro i hi
      simp only [List.range_zero, List.foldl_nil] at hi
      omega
    · intro q hq
      omega
  | succ j ih =>
    intro hj
    obtain ⟨ih1, ih2, ih3⟩ := ih (by omega)
    have hjn : j < n := by omega
    have hjq : (j : ℚ) < (n : ℚ) := by exact_mod_cast hjn
    have hex : ∃ i, (j : ℚ) ≤ st.z (i + 1) :=
      ⟨st.k, by rw [inv.hztop]; linarith⟩
    have hT1 : (j : ℚ) ≤ st.z (Nat.find hex + 1) := Nat.find_spec hex
    have hTmin : ∀ i, i < Nat.find hex → st.z (i + 1) < (j : ℚ) := fun i hi =>
      not_le.mp (Nat.find_min hex hi)
    have hTk : Nat.find hex ≤ st.k := Nat.find_min' hex (by rw [inv.hztop]; linarith)
    have hTn : Nat.find hex + 1 ≤ n := by
      have := inv.hk
      omega
    have hstart : ((List.range j).foldl (queryStep f n st) (0, fun _ => 0)).1 ≤
        Nat.find hex := by
      by_contra hcon
      push_neg at hcon
      exact absurd hT1 (not_le.mpr (ih2 (Nat.find hex) hcon))
    have hstep : List.range (j + 1) = List.range j ++ [j] := List.range_succ j
    have hfold : (List.range (j + 1)).foldl (queryStep f n st) (0, fun _ => 0) =
        queryStep f n st ((List.range j).foldl (queryStep f n st) (0, fun _ => 0)) j := by
      rw [hstep, List.foldl_append, List.foldl_cons, List.foldl_nil]
    have hadv : advance n st.z (j : ℚ) (n + 1)
        ((List.range j).foldl (queryStep f n st) (0, fun _ => 0)).1 = Nat.find hex := by
      refine advance_eq hT1 hTmin hTn (n + 1) _ hstart ?_
      omega
    have hk1 : ((List.range (j + 1)).foldl (queryStep f n st) (0, fun _ => 0)).1 =
        Nat.find hex := by
      rw [hfold]
      exact hadv
    refine ⟨?_, ?_, ?_⟩
    · rw [hk1]; exact hTk
    · intro i hi
      rw [hk1] at hi
      have hlt := hTmin i hi
      have hj1 : (j : ℚ) < ((j : ℚ) + 1) := by linarith
      have hcast : ((j + 1 : ℕ) : ℚ) = (j : ℚ) + 1 := by push_cast; ring
      rw [hcast]
      linarith
    · intro q hq
      rcases Nat.lt_or_ge q j with hqj | hqj
      · obtain ⟨i, hi1, hi2, hi3, hi4⟩ := ih3 q hqj
        refine ⟨i, hi1, hi2, hi3, ?_⟩
        rw [hfold]
        show Function.update
          ((List.range j).foldl (queryStep f n st) (0, fun _ => 0)).2 j _ q = _
        rw [Function.update_noteq (by omega : q ≠ j)]
        exact hi4
      · have hqeq : q = j := by omega
        refine ⟨Nat.find hex, hTk, ?_, ?_, ?_⟩
        · rcases Nat.eq_zero_or_pos (Nat.find hex) with h0 | hpos
          · rw [h0, inv.hz0, hqeq]
            have : (0 : ℚ) ≤ (j : ℚ) := by positivity
            have := INF_pos
            linarith
          · have := hTmin (Nat.find hex - 1) (by omega)
            rw [show Nat.find hex - 1 + 1 = Nat.find hex by omega] at this
            rw [hqeq]
            exact this
        · rw [hqeq]; exact hT1
        · rw [hfold, hqeq]
          show Function.update
            ((List.range j).foldl (queryStep f n st) (0, fun _ => 0)).2 j _ j = _
          rw [Function.update_same, hadv]
          rfl

/-- **Correctness of `distanceTransform1D`**: for inputs with values in
`[0, C]` (and `C` small against the sentinel), the output at every query
position is the exact lower envelope `min_{p < n} ((q-p)^2 + f p)`. -/
theorem distanceTransform1D_eq_min {f : ℕ → ℚ} {n : ℕ} {C : ℚ} (hn : 0 < n)
    (Hf : ∀ p, p < n → 0 ≤ f p ∧ f p ≤ C)
    (HC : C + (n : ℚ) ^ 2 < 2 * INF) :
    ∀ q, q < n → distanceTransform1D f n q =
      (Finset.range n).inf' (Finset.nonempty_range_iff.mpr hn.ne')
        (fun p => parab f p (q : ℚ)) := by
  have hC0 : 0 ≤ C := le_trans (Hf 0 hn).1 (Hf 0 hn).2
  have hnINF : (n : ℚ) ≤ INF := by
    by_contra hcon
    push_neg at hcon
    have h1 : (n : ℚ) ^ 2 < 2 * INF := by linarith
    have h2 : INF * INF ≤ (n : ℚ) * (n : ℚ) :=
      mul_le_mul (le_of_lt hcon) (le_of_lt hcon) (le_of_lt INF_pos) (by positivity)
    have h3 : 2 * INF ≤ INF * INF := by nlinarith [two_le_INF, INF_pos]
    nlinarith
  have inv := envInv_build Hf HC hn
  intro q hq
  obtain ⟨-, -, hout⟩ := query_phase inv hn hnINF n (le_refl n)
  obtain ⟨i, hi1, hi2, hi3, hi4⟩ := hout q hq
  have hdt : distanceTransform1D f n q = parab f ((buildEnv f n).v i) (q : ℚ) := hi4
  rw [distanceTransform1D] at hdt ⊢
  rw [hdt]
  apply le_antisymm
  · apply Finset.le_inf'
    intro p hp
    have hpm : p ≤ n - 1 := by
      have := Finset.mem_range.mp hp
      omega
    exact inv.hcover hi1 hi2 (Or.inr hi3) hpm
  · apply Finset.inf'_le
    apply Finset.mem_range.mpr
    have := inv.hvle hi1
    omega

/-! ## The 2-D distance transform as an exact minimum over seed pixels -/

theorem initialOf_cases (bm : BinaryBitmap) (i : ℕ) :
    initialOf bm i = 0 ∨ initialOf bm i = INF := by
  unfold initialOf
  by_cases h : 127 < bm.data (i * 4)
  · right; rw [if_pos h]
  · left; rw [if_neg h]

theorem initialOf_nonneg (bm : BinaryBitmap) (i : ℕ) : 0 ≤ initialOf bm i := by
  rcases initialOf_cases bm i with h | h <;> rw [h]
  exact le_of_lt INF_pos

theorem initialOf_le_INF (bm : BinaryBitmap) (i : ℕ) : initialOf bm i ≤ INF := by
  rcases initialOf_cases bm i with h | h <;> rw [h]
  exact le_of_lt INF_pos

/-- One column of the column pass is the exact 1-D envelope of its seeds. -/
theorem colPass_eq_min (bm : BinaryBitmap) (Hh : ((bm.height : ℚ)) ^ 2 < INF)
    (hh : 0 < bm.height) {y a : ℕ} (hy : y < bm.height) (ha : a < bm.width) :
    colPass bm.width bm.height (initialOf bm) (y * bm.width + a) =
      (Finset.range bm.height).inf' (Finset.nonempty_range_iff.mpr hh.ne')
        (fun b => parab (fun b' => initialOf bm (b' * bm.width + a)) b (y : ℚ)) := by
  have hmod : (y * bm.width + a) % bm.width = a := by
    rw [mul_comm, Nat.mul_add_mod, Nat.mod_eq_of_lt ha]
  have hdiv : (y * bm.width + a) / bm.width = y := by
    have hw : 0 < bm.width := by omega
    rw [Nat.add_comm, Nat.add_mul_div_right a y hw, Nat.div_eq_of_lt ha, Nat.zero_add]
  unfold colPass
  rw [hmod, hdiv]
  exact distanceTransform1D_eq_min hh
    (fun p hp => ⟨initialOf_nonneg bm _, initialOf_le_INF bm _⟩)
    (by linarith) y hy

/-- **The two passes compose to the exact 2-D minimum**: the value the source
stores in `rowOutput` (before `Math.sqrt`) at any in-range pixel is the least
squared distance-plus-seed over all candidate pixels. -/
theorem fieldSq_eq_min (bm : BinaryBitmap)
    (hw : 0 < bm.width) (hh : 0 < bm.height)
    (Hw : ((bm.width : ℚ)) ^ 2 < INF) (Hh : ((bm.height : ℚ)) ^ 2 < INF)
    {idx : ℕ} (hidx : idx < bm.width * bm.height) :
    fieldSq bm idx =
      ((Finset.range bm.width) ×ˢ (Finset.range bm.height)).inf'
        (Finset.Nonempty.product (Finset.nonempty_range_iff.mpr hw.ne')
          (Finset.nonempty_range_iff.mpr hh.ne'))
        (fun ab => pixelCost bm idx ab.1 ab.2) := by
  have hx : idx % bm.width < bm.width := Nat.mod_lt _ hw
  have hy : idx / bm.width < bm.height := Nat.div_lt_of_lt_mul hidx
  have hne_h : (Finset.range bm.height).Nonempty := Finset.nonempty_range_iff.mpr hh.ne'
  have hrowf : ∀ a, a < bm.width →
      colPass bm.width bm.height (initialOf bm) (idx / bm.width * bm.width + a) =
      (Finset.range bm.height).inf' hne_h
        (fun b => parab (fun b' => initialOf bm (b' * bm.width + a)) b
          ((idx / bm.width : ℕ) : ℚ)) := fun a ha => colPass_eq_min bm Hh hh hy ha
  have hrow_bounds : ∀ p, p < bm.width →
      0 ≤ colPass bm.width bm.height (initialOf bm) (idx / bm.width * bm.width + p) ∧
      colPass bm.width bm.height (initialOf bm) (idx / bm.width * bm.width + p) ≤ INF := by
    intro p hp
    rw [hrowf p hp]
    constructor
    · apply Finset.le_inf'
      intro b hb
      unfold parab
      have h1 : (0:ℚ) ≤ (((idx / bm.width : ℕ) : ℚ) - (b : ℚ)) ^ 2 := sq_nonneg _
      have h2 := initialOf_nonneg bm (b * bm.width + p)
      linarith
    · calc (Finset.range bm.height).inf' hne_h _ ≤
          parab (fun b' => initialOf bm (b' * bm.width + p)) (idx / bm.width)
            ((idx / bm.width : ℕ) : ℚ) :=
            Finset.inf'_le _ (Finset.mem_range.mpr hy)
        _ = initialOf bm (idx / bm.width * bm.width + p) := by
            unfold parab; rw [sub_self, zero_pow (by omega), zero_add]
        _ ≤ INF := initialOf_le_INF bm _
  have hmain := distanceTransform1D_eq_min hw hrow_bounds (by linarith)
    (idx % bm.width) hx
  unfold fieldSq
  rw [hmain]
  apply le_antisymm
  · apply Finset.le_inf'
    intro ab hab
    rw [Finset.mem_product, Finset.mem_range, Finset.mem_range] at hab
    refine le_trans (Finset.inf'_le _ (Finset.mem_range.mpr hab.1)) ?_
    unfold parab pixelCost
    simp only [hrowf ab.1 hab.1]
    have hb : (Finset.range bm.height).inf' hne_h
        (fun b => parab (fun b' => initialOf bm (b' * bm.width + ab.1)) b
          ((idx / bm.width : ℕ) : ℚ)) ≤
        parab (fun b' => initialOf bm (b' * bm.width + ab.1)) ab.2
          ((idx / bm.width : ℕ) : ℚ) :=
      Finset.inf'_le _ (Finset.mem_range.mpr hab.2)
    have hb' : parab (fun b' => initialOf bm (b' * bm.width + ab.1)) ab.2
        ((idx / bm.width : ℕ) : ℚ) =
        (((idx / bm.width : ℕ) : ℚ) - (ab.2 : ℚ)) ^ 2 +
          initialOf bm (ab.2 * bm.width + ab.1) := rfl
    linarith [hb, hb']
  · apply Finset.le_inf'
    intro a ha
    obtain ⟨b, hb, hbeq⟩ := Finset.exists_mem_eq_inf' hne_h
      (fun b => parab (fun b' => initialOf bm (b' * bm.width + a)) b
        ((idx / bm.width : ℕ) : ℚ))
    have hmem : (a, b) ∈ (Finset.range bm.width) ×ˢ (Finset.range bm.height) :=
      Finset.mem_product.mpr ⟨ha, hb⟩
    refine le_trans (Finset.inf'_le _ hmem) ?_
    apply le_of_eq
    show pixelCost bm idx a b = _
    unfold parab pixelCost
    simp only [hrowf a (Finset.mem_range.mp ha)]
    rw [hbeq]
    unfold parab
    ring

theorem cell_lt {w h a b : ℕ} (ha : a < w) (hb : b < h) : b * w + a < w * h := by
  calc b * w + a < b * w + w := by omega
    _ = (b + 1) * w := by ring
    _ ≤ h * w := Nat.mul_le_mul_right w hb
    _ = w * h := Nat.mul_comm h w

theorem pixelCost_nonneg (bm : BinaryBitmap) (idx a b : ℕ) :
    0 ≤ pixelCost bm idx a b := by
  unfold pixelCost
  have h1 := sq_nonneg (((idx % bm.width : ℕ) : ℚ) - (a : ℚ))
  have h2 := sq_nonneg (((idx / bm.width : ℕ) : ℚ) - (b : ℚ))
  have h3 := initialOf_nonneg bm (b * bm.width + a)
  linarith

theorem fieldSq_nonneg (bm : BinaryBitmap)
    (hw : 0 < bm.width) (hh : 0 < bm.height)
    (Hw : ((bm.width : ℚ)) ^ 2 < INF) (Hh : ((bm.height : ℚ)) ^ 2 < INF)
    {idx : ℕ} (hidx : idx < bm.width * bm.height) : 0 ≤ fieldSq bm idx := by
  rw [fieldSq_eq_min bm hw hh Hw Hh hidx]
  apply Finset.le_inf'
  intro ab hab
  exact pixelCost_nonneg bm idx ab.1 ab.2

theorem fieldSq_le_cost (bm : BinaryBitmap)
    (hw : 0 < bm.width) (hh : 0 < bm.height)
    (Hw : ((bm.width : ℚ)) ^ 2 < INF) (Hh : ((bm.height : ℚ)) ^ 2 < INF)
    {idx : ℕ} (hidx : idx < bm.width * bm.height)
    {a b : ℕ} (ha : a < bm.width) (hb : b < bm.height) :
    fieldSq bm idx ≤ pixelCost bm idx a b := by
  rw [fieldSq_eq_min bm hw hh Hw Hh hidx]
  have hmem : (a, b) ∈ (Finset.range bm.width) ×ˢ (Finset.range bm.height) :=
    Finset.mem_product.mpr ⟨Finset.mem_range.mpr ha, Finset.mem_range.mpr hb⟩
  exact Finset.inf'_le _ hmem

theorem le_fieldSq (bm : BinaryBitmap)
    (hw : 0 < bm.width) (hh : 0 < bm.height)
    (Hw : ((bm.width : ℚ)) ^ 2 < INF) (Hh : ((bm.height : ℚ)) ^ 2 < INF)
    {idx : ℕ} (hidx : idx < bm.width * bm.height) {c : ℚ}
    (hc : ∀ a b, a < bm.width → b < bm.height → c ≤ pixelCost bm idx a b) :
    c ≤ fieldSq bm idx := by
  rw [fieldSq_eq_min bm hw hh Hw Hh hidx]
  apply Finset.le_inf'
  intro ab hab
  rw [Finset.mem_product, Finset.mem_range, Finset.mem_range] at hab
  exact hc ab.1 ab.2 hab.1 hab.2

/-- A pixel that is itself a boundary seed has squared distance `0`. -/
theorem fieldSq_seed (bm : BinaryBitmap)
    (hw : 0 < bm.width) (hh : 0 < bm.height)
    (Hw : ((bm.width : ℚ)) ^ 2 < INF) (Hh : ((bm.height : ℚ)) ^ 2 < INF)
    {idx : ℕ} (hidx : idx < bm.width * bm.height)
    (hseed : initialOf bm idx = 0) : fieldSq bm idx = 0 := by
  have hx : idx % bm.width < bm.width := Nat.mod_lt _ hw
  have hy : idx / bm.width < bm.height := Nat.div_lt_of_lt_mul hidx
  have hcost : pixelCost bm idx (idx % bm.width) (idx / bm.width) = 0 := by
    unfold pixelCost
    rw [sub_self, sub_self]
    have hrec : idx / bm.width * bm.width + idx % bm.width = idx := by
      rw [mul_comm]
      exact Nat.div_add_mod idx bm.width
    rw [hrec, hseed]
    ring
  apply le_antisymm
  · rw [← hcost]
    exact fieldSq_le_cost bm hw hh Hw Hh hidx hx hy
  · exact fieldSq_nonneg bm hw hh Hw Hh hidx

/-- On an all-interior bitmap the squared field is the sentinel everywhere. -/
theorem fieldSq_all_INF (bm : BinaryBitmap)
    (hw : 0 < bm.width) (hh : 0 < bm.height)
    (Hw : ((bm.width : ℚ)) ^ 2 < INF) (Hh : ((bm.height : ℚ)) ^ 2 < INF)
    (hall : ∀ i, i < bm.width * bm.height → initialOf bm i = INF)
    {idx : ℕ} (hidx : idx < bm.width * bm.height) : fieldSq bm idx = INF := by
  have hx : idx % bm.width < bm.width := Nat.mod_lt _ hw
  have hy : idx / bm.width < bm.height := Nat.div_lt_of_lt_mul hidx
  apply le_antisymm
  · have hcost : pixelCost bm idx (idx % bm.width) (idx / bm.width) = INF := by
      unfold pixelCost
      rw [sub_self, sub_self]
      have hrec : idx / bm.width * bm.width + idx % bm.width = idx := by
        rw [mul_comm]
        exact Nat.div_add_mod idx bm.width
      rw [hrec, hall idx hidx]
      ring
    rw [← hcost]
    exact fieldSq_le_cost bm hw hh Hw Hh hidx hx hy
  · apply le_fieldSq bm hw hh Hw Hh hidx
    intro a b ha hb
    unfold pixelCost
    rw [hall (b * bm.width + a) (cell_lt ha hb)]
    have h1 := sq_nonneg (((idx % bm.width : ℕ) : ℚ) - (a : ℚ))
    have h2 := sq_nonneg (((idx / bm.width : ℕ) : ℚ) - (b : ℚ))
    linarith

/-- Pointwise larger seeds give a pointwise larger squared field
(same dimensions). -/
theorem fieldSq_mono {w h : ℕ} (d₁ d₂ : ℕ → ℕ)
    (hw : 0 < w) (hh : 0 < h)
    (Hw : ((w : ℚ)) ^ 2 < INF) (Hh : ((h : ℚ)) ^ 2 < INF)
    (hmono : ∀ i, i < w * h →
      initialOf ⟨w, h, d₁⟩ i ≤ initialOf ⟨w, h, d₂⟩ i)
    {idx : ℕ} (hidx : idx < w * h) :
    fieldSq ⟨w, h, d₁⟩ idx ≤ fieldSq ⟨w, h, d₂⟩ idx := by
  rw [fieldSq_eq_min ⟨w, h, d₂⟩ hw hh Hw Hh hidx]
  apply Finset.le_inf'
  intro ab hab
  rw [Finset.mem_product, Finset.mem_range, Finset.mem_range] at hab
  refine le_trans (fieldSq_le_cost ⟨w, h, d₁⟩ hw hh Hw Hh hidx hab.1 hab.2) ?_
  unfold pixelCost
  have hin := hmono (ab.2 * w + ab.1) (cell_lt hab.1 hab.2)
  have h1 : (((idx % w : ℕ) : ℚ) - (ab.1 : ℚ)) ^ 2 =
      (((idx % w : ℕ) : ℚ) - (ab.1 : ℚ)) ^ 2 := rfl
  linarith [hin]

/-- The seeds of the outward pass: a pixel seeds the outward transform exactly
when the shrink mask keeps it (value 0 there, 255 elsewhere). -/
theorem outward_initial (bm : BinaryBitmap) (cfg : WorkerConfig) (j : ℕ) :
    initialOf (outwardBitmap bm cfg) j =
      if shrinkMask bm cfg j then 0 else INF := by
  have h4 : ¬ (j * 4 % 4 = 3) := by omega
  have hdiv : j * 4 / 4 = j := by omega
  have hdata : (outwardBitmap bm cfg).data (j * 4) =
      if shrinkMask bm cfg j then 0 else 255 := by
    show invertedData bm cfg (j * 4) = _
    unfold invertedData
    rw [if_neg h4, hdiv]
  unfold initialOf
  rw [hdata]
  by_cases h : shrinkMask bm cfg j
  · simp only [if_pos h]
    rw [if_neg (by omega : ¬ (127 : ℕ) < 0)]
  · simp only [if_neg h]
    rw [if_pos (by omega : (127 : ℕ) < 255)]

/-! ## Helper lemmas for the morphology layer and concrete rasters -/

/-- The sentinel survives both passes as `sqrt(1e20) = 1e10`, a finite value. -/
theorem sqrt_INF_cast : Real.sqrt ((INF : ℚ) : ℝ) = 10 ^ 10 := by
  have hc : ((INF : ℚ) : ℝ) = ((10 : ℝ) ^ 10) ^ 2 := by
    rw [INF]
    push_cast
    norm_num
  rw [hc]
  exact Real.sqrt_sq (by positivity)

/-- With `noiseAmplitude = 0` the perturbation block is skipped. -/
theorem perturbed_no_noise (bm : BinaryBitmap) (cfg : WorkerConfig)
    (mk : ℤ → ℝ → ℝ → ℝ) (i : ℕ) (h : cfg.noiseAmplitude = 0) :
    perturbedOutward bm cfg mk i = field (outwardBitmap bm cfg) i := by
  unfold perturbedOutward
  rw [if_neg]
  rw [h]
  exact lt_irrefl 0

/-- The three octaves of a constant generator combine back to the constant:
`(c + 0.5c + 0.25c) / 1.75 = c`. -/
theorem combinedNoise_mkConst (c : ℝ) (s : ℤ) (x y : ℕ) :
    combinedNoise (mkConst c s) x y = c := by
  unfold combinedNoise mkConst
  norm_num
  rw [div_eq_iff (by norm_num : (7 / 4 : ℝ) ≠ 0)]
  ring

/-- A pixel kept by the shrink mask seeds the outward transform, so its
outward squared distance is `0`. -/
theorem outwardSq_seed (bm : BinaryBitmap) (cfg : WorkerConfig)
    (hw : 0 < bm.width) (hh : 0 < bm.height)
    (Hw : ((bm.width : ℚ)) ^ 2 < INF) (Hh : ((bm.height : ℚ)) ^ 2 < INF)
    {i : ℕ} (hi : i < bm.width * bm.height) (hs : shrinkMask bm cfg i) :
    fieldSq (outwardBitmap bm cfg) i = 0 := by
  apply fieldSq_seed (outwardBitmap bm cfg) hw hh Hw Hh hi
  rw [outward_initial, if_pos hs]

theorem one_sq_lt_INF : ((1 : ℕ) : ℚ) ^ 2 < INF := by norm_num [INF]

theorem three_sq_lt_INF : ((3 : ℕ) : ℚ) ^ 2 < INF := by norm_num [INF]

theorem bm3x1_init (i : ℕ) : initialOf bm3x1 i = if i = 1 then INF else 0 := by
  unfold initialOf bm3x1
  by_cases h : i = 1
  · subst h
    norm_num
  · have h4 : ¬ (i * 4 = 4) := by omega
    simp only [h4, if_false, h]
    norm_num

theorem bm3x1_sq0 : fieldSq bm3x1 0 = 0 := by
  apply fieldSq_seed bm3x1 (by decide) (by decide) three_sq_lt_INF one_sq_lt_INF
    (by decide)
  rw [bm3x1_init]
  norm_num

theorem bm3x1_sq2 : fieldSq bm3x1 2 = 0 := by
  apply fieldSq_seed bm3x1 (by decide) (by decide) three_sq_lt_INF one_sq_lt_INF
    (by decide)
  rw [bm3x1_init]
  norm_num

theorem bm3x1_sq1 : fieldSq bm3x1 1 = 1 := by
  apply le_antisymm
  · have hc := fieldSq_le_cost bm3x1 (by decide) (by decide) three_sq_lt_INF
      one_sq_lt_INF (by decide : (1 : ℕ) < bm3x1.width * bm3x1.height)
      (by decide : 0 < bm3x1.width) (by decide : 0 < bm3x1.height)
    have hcost : pixelCost bm3x1 1 0 0 = 1 := by
      unfold pixelCost
      rw [bm3x1_init]
      norm_num [bm3x1]
    rw [hcost] at hc
    exact hc
  · apply le_fieldSq bm3x1 (by decide) (by decide) three_sq_lt_INF one_sq_lt_INF
      (by decide : (1 : ℕ) < bm3x1.width * bm3x1.height)
    intro a b ha hb
    have hh1 : bm3x1.height = 1 := rfl
    have hw3 : bm3x1.width = 3 := rfl
    rw [hh1] at hb
    rw [hw3] at ha
    have hb0 : b = 0 := by omega
    subst hb0
    interval_cases a <;>
      (unfold pixelCost; rw [bm3x1_init]; norm_num [bm3x1, INF])

theorem bm3x1_field0 : field bm3x1 0 = 0 := by
  unfold field
  rw [bm3x1_sq0]
  simp

theorem bm3x1_field1 : field bm3x1 1 = 1 := by
  unfold field
  rw [bm3x1_sq1]
  simp

theorem bm3x1_field2 : field bm3x1 2 = 0 := by
  unfold field
  rw [bm3x1_sq2]
  simp

theorem storeConfig_shrink (g r a : ℝ) (s : ℤ) :
    (storeConfig g r a s).shrinkThreshold = r * 5 + g * 5 / 2 := rfl

theorem storeConfig_round (g r a : ℝ) (s : ℤ) :
    (storeConfig g r a s).roundThreshold = r * 5 := rfl

theorem storeConfig_amp (g r a : ℝ) (s : ℤ) :
    (storeConfig g r a s).noiseAmplitude = a := rfl

theorem storeConfig_seed (g r a : ℝ) (s : ℤ) :
    (storeConfig g r a s).noiseSeed = s := rfl

/-! ## Claim theorems -/

theorem cfgC1_fields : cfgC1.shrinkThreshold = 0 ∧ cfgC1.roundThreshold = 1 ∧
    cfgC1.noiseAmplitude = 10 := ⟨rfl, rfl, rfl⟩

/-- **C1, counterexample.**  The source's final-mask loop tests only
`outward.field[i] <= roundThreshold` and never ORs in `shrinkMask`; with noise
enabled the single pixel of a 1×1 raster is in the shrink set yet dropped, so
the claimed rule (`kept iff shrink ∨ outward ≤ round`, and in particular
"every shrink pixel is kept regardless of the noise") fails. -/
theorem C1_final_mask_rule_counterexample :
    shrinkMask bm1x1Black cfgC1 0 ∧
    ¬ finalKept bm1x1Black cfgC1 (mkConst (9 / 10)) 0 ∧
    ¬ (finalKept bm1x1Black cfgC1 (mkConst (9 / 10)) 0 ↔
        (shrinkMask bm1x1Black cfgC1 0 ∨
         perturbedOutward bm1x1Black cfgC1 (mkConst (9 / 10)) 0 ≤
           cfgC1.roundThreshold)) := by
  have hshrink : shrinkMask bm1x1Black cfgC1 0 := by
    unfold shrinkMask
    rw [cfgC1_fields.1]
    exact Real.sqrt_nonneg _
  have hnk : ¬ finalKept bm1x1Black cfgC1 (mkConst (9 / 10)) 0 := by
    unfold finalKept perturbedOutward
    rw [cfgC1_fields.2.1, cfgC1_fields.2.2]
    rw [if_pos (by norm_num : (0 : ℝ) < 10)]
    rw [combinedNoise_mkConst]
    intro hle
    have hf : (0 : ℝ) ≤ field (outwardBitmap bm1x1Black cfgC1) 0 := Real.sqrt_nonneg _
    have h9 : (9 : ℝ) ≤ max 0 (field (outwardBitmap bm1x1Black cfgC1) 0 + 9 / 10 * 10) :=
      le_trans (by linarith) (le_max_right _ _)
    linarith
  exact ⟨hshrink, hnk, fun hiff => hnk (hiff.mpr (Or.inl hshrink))⟩

/-- **C1, amended.**  A pixel is kept iff its (possibly noise-perturbed)
outward distance is at most `roundThreshold` — full stop.  Only in the
noise-free case (`noiseAmplitude = 0`) with a nonnegative `roundThreshold`
does the claimed rule hold: shrink pixels have outward distance `0` (they seed
the outward transform), so they are kept, and keeping is equivalent to
`shrinkMask[p] ∨ outward.field[p] ≤ roundThreshold`. -/
theorem C1_final_mask_rule_amended (bm : BinaryBitmap) (cfg : WorkerConfig)
    (mk : ℤ → ℝ → ℝ → ℝ) (i : ℕ)
    (hw : 0 < bm.width) (hh : 0 < bm.height)
    (Hw : ((bm.width : ℚ)) ^ 2 < INF) (Hh : ((bm.height : ℚ)) ^ 2 < INF)
    (hi : i < bm.width * bm.height)
    (hamp : cfg.noiseAmplitude = 0) (hround : 0 ≤ cfg.roundThreshold) :
    (∀ (mk' : ℤ → ℝ → ℝ → ℝ) (j : ℕ),
      finalKept bm cfg mk' j ↔ perturbedOutward bm cfg mk' j ≤ cfg.roundThreshold) ∧
    (shrinkMask bm cfg i → finalKept bm cfg mk i) ∧
    (finalKept bm cfg mk i ↔
      shrinkMask bm cfg i ∨ field (outwardBitmap bm cfg) i ≤ cfg.roundThreshold) := by
  have hpert := perturbed_no_noise bm cfg mk i hamp
  have hsk : shrinkMask bm cfg i → finalKept bm cfg mk i := by
    intro hs
    unfold finalKept
    rw [hpert]
    have h0 : fieldSq (outwardBitmap bm cfg) i = 0 :=
      outwardSq_seed bm cfg hw hh Hw Hh hi hs
    unfold field
    rw [h0]
    simpa using hround
  refine ⟨fun mk' j => Iff.rfl, hsk, ?_, ?_⟩
  · intro hk
    right
    unfold finalKept at hk
    rw [hpert] at hk
    exact hk
  · rintro (hs | ho)
    · exact hsk hs
    · unfold finalKept
      rw [hpert]
      exact ho

/-- Witness for `C1_final_mask_rule_amended` on a concrete 1×1 raster. -/
theorem C1_final_mask_rule_witness :
    (cfgC1w.noiseAmplitude = 0 ∧ (0 : ℝ) ≤ cfgC1w.roundThreshold) ∧
    (shrinkMask bm1x1Black cfgC1w 0 → finalKept bm1x1Black cfgC1w (mkConst 0) 0) ∧
    (finalKept bm1x1Black cfgC1w (mkConst 0) 0 ↔
      shrinkMask bm1x1Black cfgC1w 0 ∨
        field (outwardBitmap bm1x1Black cfgC1w) 0 ≤ cfgC1w.roundThreshold) := by
  have h := C1_final_mask_rule_amended bm1x1Black cfgC1w (mkConst 0) 0
    (by decide) (by decide) one_sq_lt_INF one_sq_lt_INF (by decide) rfl
    (show (0 : ℝ) ≤ 1 by norm_num)
  exact ⟨⟨rfl, show (0 : ℝ) ≤ 1 by norm_num⟩, h.2.1, h.2.2⟩

/-- **C3, counterexample.**  With `gap = 0, round = 0` every pixel is kept:
the shrink threshold `0` is met by every pixel (distances are nonnegative), so
every pixel seeds the outward transform and has outward distance `0 ≤ 0`.
In particular the background pixel of a 1×1 raster is kept even though it is
not foreground, so the final mask is *not* pixel-for-pixel the raw bitmap. -/
theorem C3_gap0_round0_counterexample :
    finalKept bm1x1Black (storeConfig 0 0 0 0) (mkConst 0) 0 ∧
    ¬ 127 < bm1x1Black.data (0 * 4) := by
  constructor
  · have hs : shrinkMask bm1x1Black (storeConfig 0 0 0 0) 0 := by
      unfold shrinkMask
      rw [storeConfig_shrink]
      have h0 : (0 : ℝ) * 5 + 0 * 5 / 2 = 0 := by norm_num
      rw [h0]
      exact Real.sqrt_nonneg _
    have h0 : fieldSq (outwardBitmap bm1x1Black (storeConfig 0 0 0 0)) 0 = 0 :=
      outwardSq_seed bm1x1Black _ (by decide) (by decide) one_sq_lt_INF
        one_sq_lt_INF (by decide) hs
    unfold finalKept
    rw [perturbed_no_noise _ _ _ _ rfl]
    unfold field
    rw [h0, storeConfig_round]
    simp
  · decide

/-- **C3, amended.**  With `gap = 0, round = 0` (and no noise) the Morphology
Engine keeps *every* pixel of the raster — foreground and background alike —
rather than reproducing the raw partition bitmap; the two coincide only when
the raw bitmap is entirely foreground. -/
theorem C3_gap0_round0_amended (bm : BinaryBitmap) (mk : ℤ → ℝ → ℝ → ℝ) (seed : ℤ)
    (hw : 0 < bm.width) (hh : 0 < bm.height)
    (Hw : ((bm.width : ℚ)) ^ 2 < INF) (Hh : ((bm.height : ℚ)) ^ 2 < INF) :
    ∀ i, i < bm.width * bm.height → finalKept bm (storeConfig 0 0 0 seed) mk i := by
  intro i hi
  have hs : shrinkMask bm (storeConfig 0 0 0 seed) i := by
    unfold shrinkMask
    rw [storeConfig_shrink]
    have h0 : (0 : ℝ) * 5 + 0 * 5 / 2 = 0 := by norm_num
    rw [h0]
    exact Real.sqrt_nonneg _
  have h0 := outwardSq_seed bm _ hw hh Hw Hh hi hs
  unfold finalKept
  rw [perturbed_no_noise _ _ _ _ rfl]
  unfold field
  rw [h0, storeConfig_round]
  simp

/-- Witness for `C3_gap0_round0_amended` on a concrete 1×1 raster. -/
theorem C3_gap0_round0_witness :
    0 < bm1x1White.width ∧ finalKept bm1x1White (storeConfig 0 0 0 0) (mkConst 0) 0 :=
  ⟨by decide, C3_gap0_round0_amended bm1x1White (mkConst 0) 0 (by decide) (by decide)
    one_sq_lt_INF one_sq_lt_INF 0 (by decide)⟩

/-- **C9, confirmed.**  The morphology engine is a pure function of
`(raster, config, noise generator family)`: identical inputs give identical
final masks, and with `noiseAmplitude = 0` the mask is independent of the
noise seed and of the generator itself (only the thresholds matter). -/
theorem C9_morphology_determinism :
    (∀ (bm bm' : BinaryBitmap) (cfg cfg' : WorkerConfig)
      (mk mk' : ℤ → ℝ → ℝ → ℝ),
      bm = bm' → cfg = cfg' → mk = mk' →
      ∀ i, finalKept bm cfg mk i ↔ finalKept bm' cfg' mk' i) ∧
    (∀ (bm : BinaryBitmap) (cfg cfg' : WorkerConfig)
      (mk mk' : ℤ → ℝ → ℝ → ℝ) (i : ℕ),
      cfg.noiseAmplitude = 0 → cfg'.noiseAmplitude = 0 →
      cfg.shrinkThreshold = cfg'.shrinkThreshold →
      cfg.roundThreshold = cfg'.roundThreshold →
      (finalKept bm cfg mk i ↔ finalKept bm cfg' mk' i)) := by
  constructor
  · intro bm bm' cfg cfg' mk mk' hb hc hm i
    subst hb; subst hc; subst hm
    exact Iff.rfl
  · intro bm cfg cfg' mk mk' i ha ha' hs hr
    have hshr : ∀ j, shrinkMask bm cfg j ↔ shrinkMask bm cfg' j := by
      intro j
      unfold shrinkMask
      rw [hs]
    have hinv : invertedData bm cfg = invertedData bm cfg' := by
      funext j
      unfold invertedData
      by_cases h3 : j % 4 = 3
      · rw [if_pos h3, if_pos h3]
      · rw [if_neg h3, if_neg h3]
        by_cases hsj : shrinkMask bm cfg (j / 4)
        · rw [if_pos hsj, if_pos ((hshr _).mp hsj)]
        · rw [if_neg hsj, if_neg (fun hc2 => hsj ((hshr _).mpr hc2))]
    unfold finalKept
    rw [perturbed_no_noise bm cfg mk i ha, perturbed_no_noise bm cfg' mk' i ha', hr]
    unfold outwardBitmap
    rw [hinv]

/-- Witness for `C9_morphology_determinism`: different seeds and different
generators agree when `noiseAmplitude = 0`. -/
theorem C9_morphology_determinism_witness :
    ((⟨0, 1, 0, 3⟩ : WorkerConfig).noiseAmplitude = 0 ∧
     (⟨0, 1, 0, 7⟩ : WorkerConfig).noiseAmplitude = 0) ∧
    (finalKept bm1x1Black ⟨0, 1, 0, 3⟩ (mkConst 0) 0 ↔
     finalKept bm1x1Black ⟨0, 1, 0, 7⟩ (mkConst (1 / 2)) 0) :=
  ⟨⟨rfl, rfl⟩, C9_morphology_determinism.2 bm1x1Black ⟨0, 1, 0, 3⟩ ⟨0, 1, 0, 7⟩
    (mkConst 0) (mkConst (1 / 2)) 0 rfl rfl rfl rfl⟩

/-- **C10, confirmed.**  When the tessellation yields no polygons, or the
rasterizer yields no bitmap (no drawing surface), the worker still posts a
success-shaped response with the request's id, `piecePolygons = []`, an empty
SVG string, and no `error` field. -/
theorem C10_nothing_to_draw (id : ℕ) (polygons : List (List (ℚ × ℚ)))
    (raster : Option BinaryBitmap) (previewOf : BinaryBitmap → BinaryBitmap)
    (tracer : BinaryBitmap → List (List (ℚ × ℚ)))
    (svg : List (List (ℚ × ℚ)) → String)
    (h : polygons = [] ∨ raster = none) :
    workerSuccessResponse id polygons raster previewOf tracer svg =
      ⟨id, some [], some "", none⟩ := by
  unfold workerSuccessResponse
  rcases h with h | h
  · subst h
    rfl
  · subst h
    by_cases hp : polygons.isEmpty
    · rw [if_pos hp]
    · rw [if_neg hp]

/-- **C2, counterexample.**  With the store's coupling
`shrinkThreshold = roundPx + gapPx/2`, increasing `round` (gap fixed at 0)
from 1px to 2px *removes* pixels: on a 3×1 raster the centre pixel is kept at
`round = 1px` (it survives the shrink and regrows), but at `round = 2px` the
shrink mask empties, the outward field is the sentinel everywhere, and nothing
is kept. -/
theorem C2_monotonicity_counterexample :
    (1 / 5 : ℝ) ≤ 2 / 5 ∧
    finalKept bm3x1 (storeConfig 0 (1 / 5) 0 0) (mkConst 0) 1 ∧
    ¬ finalKept bm3x1 (storeConfig 0 (2 / 5) 0 0) (mkConst 0) 1 := by
  refine ⟨by norm_num, ?_, ?_⟩
  · have hs : shrinkMask bm3x1 (storeConfig 0 (1 / 5) 0 0) 1 := by
      unfold shrinkMask
      rw [storeConfig_shrink, bm3x1_field1]
      norm_num
    have h0 := outwardSq_seed bm3x1 (storeConfig 0 (1 / 5) 0 0) (by decide) (by decide)
      three_sq_lt_INF one_sq_lt_INF
      (by decide : (1 : ℕ) < bm3x1.width * bm3x1.height) hs
    unfold finalKept
    rw [perturbed_no_noise _ _ _ _ rfl]
    unfold field
    rw [h0, storeConfig_round]
    rw [show ((0 : ℚ) : ℝ) = 0 by norm_num, Real.sqrt_zero]
    norm_num
  · have hns : ∀ j, j < 3 → ¬ shrinkMask bm3x1 (storeConfig 0 (2 / 5) 0 0) j := by
      intro j hj
      unfold shrinkMask
      rw [storeConfig_shrink]
      interval_cases j
      · rw [bm3x1_field0]; norm_num
      · rw [bm3x1_field1]; norm_num
      · rw [bm3x1_field2]; norm_num
    have hall : ∀ i, i < bm3x1.width * bm3x1.height →
        initialOf (outwardBitmap bm3x1 (storeConfig 0 (2 / 5) 0 0)) i = INF := by
      intro i hi
      have h3 : bm3x1.width * bm3x1.height = 3 := rfl
      rw [outward_initial, if_neg (hns i (by omega))]
    have hsq : fieldSq (outwardBitmap bm3x1 (storeConfig 0 (2 / 5) 0 0)) 1 = INF :=
      fieldSq_all_INF (outwardBitmap bm3x1 (storeConfig 0 (2 / 5) 0 0))
        (by decide) (by decide) three_sq_lt_INF one_sq_lt_INF hall
        (by decide : (1 : ℕ) < bm3x1.width * bm3x1.height)
    unfold finalKept
    rw [perturbed_no_noise _ _ _ _ rfl]
    unfold field
    rw [hsq, storeConfig_round, sqrt_INF_cast]
    norm_num

/-- **C2, amended.**  Increasing `gap` at fixed `round` never adds a kept
pixel (as claimed).  Monotonicity in `round`, however, only holds for the
`roundThreshold` alone: with the shrink threshold held fixed, a larger round
threshold keeps a superset; with `gap` held fixed the coupled shrink threshold
`roundPx + gapPx/2` also grows and can remove pixels
(`C2_monotonicity_counterexample`). -/
theorem C2_monotonicity_amended :
    (∀ (bm : BinaryBitmap) (mk : ℤ → ℝ → ℝ → ℝ) (g₁ g₂ r amp : ℝ) (seed : ℤ),
      g₁ ≤ g₂ →
      0 < bm.width → 0 < bm.height →
      ((bm.width : ℚ)) ^ 2 < INF → ((bm.height : ℚ)) ^ 2 < INF →
      ∀ i, i < bm.width * bm.height →
        finalKept bm (storeConfig g₂ r amp seed) mk i →
        finalKept bm (storeConfig g₁ r amp seed) mk i) ∧
    (∀ (bm : BinaryBitmap) (mk : ℤ → ℝ → ℝ → ℝ) (s r₁ r₂ amp : ℝ) (seed : ℤ) (i : ℕ),
      r₁ ≤ r₂ →
      finalKept bm ⟨s, r₁, amp, seed⟩ mk i → finalKept bm ⟨s, r₂, amp, seed⟩ mk i) := by
  constructor
  · intro bm mk g₁ g₂ r amp seed hg hw hh Hw Hh i hi hkept
    have hshrinkle : (storeConfig g₁ r amp seed).shrinkThreshold ≤
        (storeConfig g₂ r amp seed).shrinkThreshold := by
      rw [storeConfig_shrink, storeConfig_shrink]
      linarith
    have hmask : ∀ j, shrinkMask bm (storeConfig g₂ r amp seed) j →
        shrinkMask bm (storeConfig g₁ r amp seed) j := fun j h => le_trans hshrinkle h
    have hinit : ∀ j, j < bm.width * bm.height →
        initialOf (outwardBitmap bm (storeConfig g₁ r amp seed)) j ≤
        initialOf (outwardBitmap bm (storeConfig g₂ r amp seed)) j := by
      intro j hj
      rw [outward_initial, outward_initial]
      by_cases h2 : shrinkMask bm (storeConfig g₂ r amp seed) j
      · rw [if_pos h2, if_pos (hmask j h2)]
      · rw [if_neg h2]
        by_cases h1 : shrinkMask bm (storeConfig g₁ r amp seed) j
        · rw [if_pos h1]
          exact le_of_lt INF_pos
        · rw [if_neg h1]
    have hsq : fieldSq (outwardBitmap bm (storeConfig g₁ r amp seed)) i ≤
        fieldSq (outwardBitmap bm (storeConfig g₂ r amp seed)) i :=
      fieldSq_mono (invertedData bm (storeConfig g₁ r amp seed))
        (invertedData bm (storeConfig g₂ r amp seed)) hw hh Hw Hh hinit hi
    have hfield : field (outwardBitmap bm (storeConfig g₁ r amp seed)) i ≤
        field (outwardBitmap bm (storeConfig g₂ r amp seed)) i := by
      unfold field
      apply Real.sqrt_le_sqrt
      exact_mod_cast hsq
    have hpert : perturbedOutward bm (storeConfig g₁ r amp seed) mk i ≤
        perturbedOutward bm (storeConfig g₂ r amp seed) mk i := by
      unfold perturbedOutward
      rw [storeConfig_amp, storeConfig_amp, storeConfig_seed, storeConfig_seed]
      by_cases ha : (0 : ℝ) < amp
      · rw [if_pos ha, if_pos ha]
        refine max_le_max (le_refl (0 : ℝ)) ?_
        exact add_le_add_right hfield _
      · rw [if_neg ha, if_neg ha]
        exact hfield
    unfold finalKept at hkept ⊢
    rw [storeConfig_round] at hkept ⊢
    exact le_trans hpert hkept
  · intro bm mk s r₁ r₂ amp seed i hr h1
    unfold finalKept at h1 ⊢
    have heq : perturbedOutward bm ⟨s, r₂, amp, seed⟩ mk i =
        perturbedOutward bm ⟨s, r₁, amp, seed⟩ mk i := rfl
    rw [heq]
    have hr1 : (⟨s, r₁, amp, seed⟩ : WorkerConfig).roundThreshold = r₁ := rfl
    have hr2 : (⟨s, r₂, amp, seed⟩ : WorkerConfig).roundThreshold = r₂ := rfl
    rw [hr2]
    rw [hr1] at h1
    linarith

/-- Witness for `C2_monotonicity_amended` on the concrete 3×1 raster. -/
theorem C2_monotonicity_witness :
    ((0 : ℝ) ≤ 2 / 5 ∧ (1 : ℝ) ≤ 2) ∧
    (finalKept bm3x1 (storeConfig (2 / 5) (1 / 5) 0 0) (mkConst 0) 1 →
      finalKept bm3x1 (storeConfig 0 (1 / 5) 0 0) (mkConst 0) 1) ∧
    (finalKept bm3x1 ⟨1, 1, 0, 0⟩ (mkConst 0) 1 →
      finalKept bm3x1 ⟨1, 2, 0, 0⟩ (mkConst 0) 1) := by
  refine ⟨⟨by norm_num, by norm_num⟩, ?_, ?_⟩
  · exact C2_monotonicity_amended.1 bm3x1 (mkConst 0) 0 (2 / 5) (1 / 5) 0 0
      (by norm_num) (by decide) (by decide) three_sq_lt_INF one_sq_lt_INF 1 (by decide)
  · exact C2_monotonicity_amended.2 bm3x1 (mkConst 0) 1 1 2 0 0 1 (by norm_num)

/-- **C4, confirmed.**  On any 3×3 bitmap whose centre pixel is the only
boundary seed, the squared field at pixel `(x, y)` is the exact squared
distance to the centre, so corners read `√2`, edge midpoints `1`, centre `0`. -/
theorem C4_center_seed_3x3 (d : ℕ → ℕ) (hc : d 16 ≤ 127)
    (ho : ∀ i, i < 9 → i ≠ 4 → 127 < d (i * 4)) :
    (field ⟨3, 3, d⟩ 0 = Real.sqrt 2 ∧ field ⟨3, 3, d⟩ 2 = Real.sqrt 2 ∧
     field ⟨3, 3, d⟩ 6 = Real.sqrt 2 ∧ field ⟨3, 3, d⟩ 8 = Real.sqrt 2) ∧
    (field ⟨3, 3, d⟩ 1 = 1 ∧ field ⟨3, 3, d⟩ 3 = 1 ∧
     field ⟨3, 3, d⟩ 5 = 1 ∧ field ⟨3, 3, d⟩ 7 = 1) ∧
    field ⟨3, 3, d⟩ 4 = 0 := by
  have hinit : ∀ i, i < 9 → initialOf ⟨3, 3, d⟩ i = if i = 4 then 0 else INF := by
    intro i hi
    unfold initialOf
    show (if 127 < d (i * 4) then INF else 0) = if i = 4 then 0 else INF
    by_cases h : i = 4
    · subst h
      rw [show (4 : ℕ) * 4 = 16 from rfl, if_neg (not_lt.mpr hc), if_pos rfl]
    · rw [if_pos (ho i hi h), if_neg h]
  have hsq : ∀ idx, idx < 9 → fieldSq ⟨3, 3, d⟩ idx =
      (((idx % 3 : ℕ) : ℚ) - 1) ^ 2 + (((idx / 3 : ℕ) : ℚ) - 1) ^ 2 := by
    intro idx hidx
    apply le_antisymm
    · have hc1 := fieldSq_le_cost ⟨3, 3, d⟩ (by norm_num : (0 : ℕ) < 3)
        (by norm_num : (0 : ℕ) < 3) three_sq_lt_INF three_sq_lt_INF
        (show idx < (⟨3, 3, d⟩ : BinaryBitmap).width *
          (⟨3, 3, d⟩ : BinaryBitmap).height from hidx)
        (show (1 : ℕ) < 3 by norm_num) (show (1 : ℕ) < 3 by norm_num)
      have hcost : pixelCost ⟨3, 3, d⟩ idx 1 1 =
          (((idx % 3 : ℕ) : ℚ) - 1) ^ 2 + (((idx / 3 : ℕ) : ℚ) - 1) ^ 2 := by
        unfold pixelCost
        rw [show (1 : ℕ) * (⟨3, 3, d⟩ : BinaryBitmap).width + 1 = 4 from rfl,
          hinit 4 (by norm_num), if_pos rfl,
          show idx % (⟨3, 3, d⟩ : BinaryBitmap).width = idx % 3 from rfl,
          show idx / (⟨3, 3, d⟩ : BinaryBitmap).width = idx / 3 from rfl]
        push_cast
        ring
      rw [hcost] at hc1
      exact hc1
    · apply le_fieldSq ⟨3, 3, d⟩ (by norm_num : (0 : ℕ) < 3)
        (by norm_num : (0 : ℕ) < 3) three_sq_lt_INF three_sq_lt_INF
        (show idx < (⟨3, 3, d⟩ : BinaryBitmap).width *
          (⟨3, 3, d⟩ : BinaryBitmap).height from hidx)
      intro a b ha hb
      rw [show (⟨3, 3, d⟩ : BinaryBitmap).width = 3 from rfl] at ha
      rw [show (⟨3, 3, d⟩ : BinaryBitmap).height = 3 from rfl] at hb
      unfold pixelCost
      rw [show b * (⟨3, 3, d⟩ : BinaryBitmap).width + a = b * 3 + a from rfl,
        hinit (b * 3 + a) (by omega),
        show idx % (⟨3, 3, d⟩ : BinaryBitmap).width = idx % 3 from rfl,
        show idx / (⟨3, 3, d⟩ : BinaryBitmap).width = idx / 3 from rfl]
      by_cases hab : b * 3 + a = 4
      · have ha1 : a = 1 := by omega
        have hb1 : b = 1 := by omega
        rw [if_pos hab, ha1, hb1]
        apply le_of_eq
        push_cast
        ring
      · rw [if_neg hab]
        have h1 : (((idx % 3 : ℕ) : ℚ) - 1) ^ 2 ≤ 1 := by
          have hm : idx % 3 = 0 ∨ idx % 3 = 1 ∨ idx % 3 = 2 := by omega
          rcases hm with h | h | h <;> rw [h] <;> norm_num
        have h2 : (((idx / 3 : ℕ) : ℚ) - 1) ^ 2 ≤ 1 := by
          have hm : idx / 3 = 0 ∨ idx / 3 = 1 ∨ idx / 3 = 2 := by omega
          rcases hm with h | h | h <;> rw [h] <;> norm_num
        have h3 := sq_nonneg (((idx % 3 : ℕ) : ℚ) - (a : ℚ))
        have h4 := sq_nonneg (((idx / 3 : ℕ) : ℚ) - (b : ℚ))
        have h5 := two_le_INF
        linarith
  have hfield : ∀ idx, idx < 9 → field ⟨3, 3, d⟩ idx =
      Real.sqrt ((((((idx % 3 : ℕ) : ℚ) - 1) ^ 2 +
        (((idx / 3 : ℕ) : ℚ) - 1) ^ 2 : ℚ)) : ℝ) := by
    intro idx hidx
    unfold field
    rw [hsq idx hidx]
  refine ⟨⟨?_, ?_, ?_, ?_⟩, ⟨?_, ?_, ?_, ?_⟩, ?_⟩
  · rw [hfield 0 (by norm_num)]; norm_num
  · rw [hfield 2 (by norm_num)]; norm_num
  · rw [hfield 6 (by norm_num)]; norm_num
  · rw [hfield 8 (by norm_num)]; norm_num
  · rw [hfield 1 (by norm_num)]; norm_num [Real.sqrt_one]
  · rw [hfield 3 (by norm_num)]; norm_num [Real.sqrt_one]
  · rw [hfield 5 (by norm_num)]; norm_num [Real.sqrt_one]
  · rw [hfield 7 (by norm_num)]; norm_num [Real.sqrt_one]
  · rw [hfield 4 (by norm_num)]; norm_num [Real.sqrt_zero]

/-- Witness for `C4_center_seed_3x3` on a concrete centre-seed 3×3 bitmap. -/
theorem C4_center_seed_3x3_witness :
    ((fun j => if j = 16 then (0 : ℕ) else 255) 16 ≤ 127) ∧
    field ⟨3, 3, fun j => if j = 16 then (0 : ℕ) else 255⟩ 0 = Real.sqrt 2 ∧
    field ⟨3, 3, fun j => if j = 16 then (0 : ℕ) else 255⟩ 1 = 1 ∧
    field ⟨3, 3, fun j => if j = 16 then (0 : ℕ) else 255⟩ 4 = 0 := by
  have h := C4_center_seed_3x3 (fun j => if j = 16 then 0 else 255) (by norm_num)
    (by
      intro i hi hne
      have hne16 : i * 4 ≠ 16 := by omega
      simp only [hne16, if_false]
      norm_num)
  exact ⟨by norm_num, h.1.1, h.2.1.1, h.2.2⟩

theorem foldl_max_stay (g : ℕ → ℝ) (v : ℝ) :
    ∀ (l : List ℕ), (∀ i ∈ l, g i = v) →
      l.foldl (fun m i => if m < g i then g i else m) v = v := by
  intro l
  induction l with
  | nil => intro _; rfl
  | cons a t ih =>
    intro hall
    have ha : g a = v := hall a (List.mem_cons_self a t)
    have hstep : (if v < g a then g a else v) = v := by
      rw [ha, if_neg (lt_irrefl v)]
    rw [List.foldl_cons, hstep]
    exact ih (fun i hi => hall i (List.mem_cons_of_mem a hi))

theorem foldl_max_from_zero (g : ℕ → ℝ) (v : ℝ) (hv : 0 < v) :
    ∀ (l : List ℕ), l ≠ [] → (∀ i ∈ l, g i = v) →
      l.foldl (fun m i => if m < g i then g i else m) 0 = v := by
  intro l hl hall
  cases l with
  | nil => exact absurd rfl hl
  | cons a t =>
    have ha : g a = v := hall a (List.mem_cons_self a t)
    have hstep : (if (0 : ℝ) < g a then g a else 0) = v := by
      rw [ha, if_pos hv]
    rw [List.foldl_cons, hstep]
    exact foldl_max_stay g v t (fun i hi => hall i (List.mem_cons_of_mem a hi))

/-- **C5, counterexample.**  On an all-interior bitmap the field is the
finite sentinel `√(1e20) = 1e10` everywhere, so the `Number.isFinite` guard
never rejects it and `maxDistance` is `1e10`, not `0` as claimed. -/
theorem C5_maxDistance_counterexample :
    maxDistance bm1x1White = 10 ^ 10 ∧ (10 ^ 10 : ℝ) ≠ 0 := by
  constructor
  · have hinit : ∀ i, i < bm1x1White.width * bm1x1White.height →
        initialOf bm1x1White i = INF := by
      intro i hi
      unfold initialOf
      show (if 127 < bm1x1White.data (i * 4) then INF else 0) = INF
      rw [show bm1x1White.data (i * 4) = 255 from rfl,
        if_pos (show (127 : ℕ) < 255 by norm_num)]
    have hf : field bm1x1White 0 = 10 ^ 10 := by
      unfold field
      rw [fieldSq_all_INF bm1x1White (by decide) (by decide) one_sq_lt_INF
        one_sq_lt_INF hinit (by decide), sqrt_INF_cast]
    unfold maxDistance
    rw [show List.range (bm1x1White.width * bm1x1White.height) = [0] from rfl,
      List.foldl_cons, List.foldl_nil, hf,
      if_pos (show (0 : ℝ) < 10 ^ 10 by norm_num)]
  · norm_num

/-- **C5, amended.**  The transform tolerates the all-interior extreme: the
field is the sentinel-derived value `√(1e20) = 1e10` at every pixel — but
`maxDistance` is that same sentinel-derived value `1e10` (the sentinel is
finite, so the `isFinite` guard keeps it), not `0`.  Companion: on an
all-seed bitmap the field and `maxDistance` are `0`. -/
theorem C5_sentinel_amended (w h : ℕ) (d : ℕ → ℕ) (hw : 0 < w) (hh : 0 < h)
    (Hw : ((w : ℚ)) ^ 2 < INF) (Hh : ((h : ℚ)) ^ 2 < INF) :
    ((∀ i, i < w * h → 127 < d (i * 4)) →
      (∀ i, i < w * h → field ⟨w, h, d⟩ i = 10 ^ 10) ∧
      maxDistance ⟨w, h, d⟩ = 10 ^ 10) ∧
    ((∀ i, i < w * h → d (i * 4) ≤ 127) →
      (∀ i, i < w * h → field ⟨w, h, d⟩ i = 0) ∧ maxDistance ⟨w, h, d⟩ = 0) := by
  constructor
  · intro hall
    have hinit : ∀ i, i < (⟨w, h, d⟩ : BinaryBitmap).width *
        (⟨w, h, d⟩ : BinaryBitmap).height → initialOf ⟨w, h, d⟩ i = INF := by
      intro i hi
      unfold initialOf
      show (if 127 < d (i * 4) then INF else 0) = INF
      rw [if_pos (hall i hi)]
    have hfield : ∀ i, i < w * h → field ⟨w, h, d⟩ i = 10 ^ 10 := by
      intro i hi
      unfold field
      rw [fieldSq_all_INF ⟨w, h, d⟩ hw hh Hw Hh hinit hi, sqrt_INF_cast]
    refine ⟨hfield, ?_⟩
    unfold maxDistance
    refine foldl_max_from_zero _ _ (by norm_num) _ ?_ ?_
    · rw [ne_eq, List.range_eq_nil]
      exact Nat.mul_ne_zero hw.ne' hh.ne'
    · intro i hi
      exact hfield i (List.mem_range.mp hi)
  · intro hall
    have hfield : ∀ i, i < w * h → field ⟨w, h, d⟩ i = 0 := by
      intro i hi
      unfold field
      rw [fieldSq_seed ⟨w, h, d⟩ hw hh Hw Hh hi ?_]
      · simp
      · unfold initialOf
        show (if 127 < d (i * 4) then INF else 0) = 0
        rw [if_neg (not_lt.mpr (hall i hi))]
    refine ⟨hfield, ?_⟩
    unfold maxDistance
    refine foldl_max_stay _ _ _ ?_
    intro i hi
    exact hfield i (List.mem_range.mp hi)

/-- Witness for `C5_sentinel_amended` on a concrete all-interior 1×1 bitmap. -/
theorem C5_sentinel_witness :
    (0 < 1 ∧ (∀ i, i < 1 * 1 → 127 < bm1x1White.data (i * 4))) ∧
    maxDistance bm1x1White = 10 ^ 10 := by
  have hall : ∀ i, i < 1 * 1 → 127 < bm1x1White.data (i * 4) := by
    intro i hi
    rw [show bm1x1White.data (i * 4) = 255 from rfl]
    norm_num
  have h := (C5_sentinel_amended 1 1 bm1x1White.data (by norm_num) (by norm_num)
    one_sq_lt_INF one_sq_lt_INF).1 hall
  exact ⟨⟨by norm_num, hall⟩, h.2⟩

/-- **C6, counterexample.**  The source filters out non-finite *vertices*
individually and keeps the rest of the cell (voronoi.ts 100–107): a cell with
one non-finite vertex still contributes its two finite vertices to its
spine's group, contradicting "any cell with a non-finite vertex coordinate is
discarded in its entirety". -/
theorem C6_cell_discard_counterexample :
    ((JSNum.nonFinite, JSNum.finite 1) ∈
      [(JSNum.finite 0, JSNum.finite 0), (JSNum.finite 1, JSNum.finite 0),
       (JSNum.nonFinite, JSNum.finite 1)]) ∧
    groupCells cellsC6 (fun _ => "a") "a" = [[((0 : ℚ), (0 : ℚ)), (1, 0)]] ∧
    groupCells cellsC6 (fun _ => "a") "a" ≠ [] := by
  refine ⟨by decide, ?_, ?_⟩
  · rfl
  · intro hcon
    have h1 : groupCells cellsC6 (fun _ => "a") "a" =
        [[((0 : ℚ), (0 : ℚ)), (1, 0)]] := rfl
    rw [h1] at hcon
    exact absurd hcon (by simp)

/-- **C6, amended.**  Only non-finite *vertices* are dropped: each present
cell contributes exactly its finite-vertex sublist, and is discarded in its
entirety only when no vertex survives (or the cell itself was null).  The
grouping loop processes every cell independently of defects elsewhere, so a
defective cell never aborts the call: the grouped output per spine id is the
in-order concatenation of the surviving per-cell contributions. -/
theorem C6_cell_discard_amended :
    (∀ (cell : List (JSNum × JSNum)),
      cellContribution (some cell) =
        if (finiteCoords cell).isEmpty then none else some (finiteCoords cell)) ∧
    (∀ (cells : List (Option (List (JSNum × JSNum)))) (ids : ℕ → String)
      (sid : String),
      groupCells cells ids sid =
        (List.range cells.length).filterMap (fun i =>
          if sid = ids i then cellContribution (cells.getD i none) else none)) := by
  constructor
  · intro cell
    rfl
  · intro cells ids sid
    have key : ∀ (n : ℕ) (acc : String → List (List (ℚ × ℚ))),
        ((List.range n).foldl (fun acc i =>
          match cellContribution (cells.getD i none) with
          | none => acc
          | some coords => fun s =>
              if s = ids i then acc s ++ [coords] else acc s) acc) sid
          = acc sid ++ (List.range n).filterMap (fun i =>
              if sid = ids i then cellContribution (cells.getD i none) else none) := by
      intro n
      induction n with
      | zero => intro acc; simp
      | succ n ih =>
        intro acc
        rw [List.range_succ, List.foldl_append, List.foldl_cons, List.foldl_nil,
          List.filterMap_append]
        cases hcontrib : cellContribution (cells.getD n none) with
        | none =>
          simp only [hcontrib]
          rw [ih acc]
          have hfn : (if sid = ids n then cellContribution (cells.getD n none)
              else none) = none := by
            by_cases hid : sid = ids n
            · rw [if_pos hid, hcontrib]
            · rw [if_neg hid]
          have hlast : List.filterMap (fun i =>
              if sid = ids i then cellContribution (cells.getD i none) else none)
              [n] = [] := by
            simp only [List.filterMap_cons, List.filterMap_nil, hfn]
          rw [hlast, List.append_nil]
        | some coords =>
          simp only [hcontrib]
          by_cases hid : sid = ids n
          · rw [if_pos hid, ih acc]
            have hfn : (if sid = ids n then cellContribution (cells.getD n none)
                else none) = some coords := by
              rw [if_pos hid, hcontrib]
            have hlast : List.filterMap (fun i =>
                if sid = ids i then cellContribution (cells.getD i none) else none)
                [n] = [coords] := by
              simp only [List.filterMap_cons, List.filterMap_nil, hfn]
            rw [hlast, List.append_assoc]
          · rw [if_neg hid, ih acc]
            have hfn : (if sid = ids n then cellContribution (cells.getD n none)
                else none) = none := by
              rw [if_neg hid]
            have hlast : List.filterMap (fun i =>
                if sid = ids i then cellContribution (cells.getD i none) else none)
                [n] = [] := by
              simp only [List.filterMap_cons, List.filterMap_nil, hfn]
            rw [hlast, List.append_nil]
    have h2 := key cells.length (fun _ => [])
    unfold groupCells
    simpa using h2

/-- **C7, confirmed.**  If N ≥ 1 submit messages arrive before the debounce
timer fires, exactly one computation is executed, with the last request's
parameters; it stays that way after the run completes. -/
theorem C7_coalescing (α : Type) (rs : List α) (h : rs ≠ []) :
    (schedRun ((rs.map SchedEvent.message) ++
      [SchedEvent.timerFire, SchedEvent.runComplete])).executed = [rs.getLast h] := by
  have hmsgs : ∀ (l : List α) (hl : l ≠ []),
      (l.map SchedEvent.message).foldl schedStep (initSched α) =
        ⟨false, some (l.getLast hl), true, []⟩ := by
    intro l
    induction l using List.reverseRecOn with
    | nil => intro hl; exact absurd rfl hl
    | append_singleton t r ih =>
      intro hl
      rw [List.map_append, List.foldl_append]
      have hlast : (t ++ [r]).getLast hl = r := List.getLast_append_singleton t
      rw [hlast]
      rcases eq_or_ne t [] with hnil | hne
      · subst hnil
        rfl
      · rw [ih hne]
        rfl
  unfold schedRun
  rw [List.foldl_append, hmsgs rs h]
  rfl

/-- Witness for `C7_coalescing`: two submissions, one run, last parameters. -/
theorem C7_coalescing_witness :
    ([1, 2] : List ℕ) ≠ [] ∧
    (schedRun ((([1, 2] : List ℕ).map SchedEvent.message) ++
      [SchedEvent.timerFire, SchedEvent.runComplete])).executed = [2] := by
  constructor
  · simp
  · have h := C7_coalescing ℕ [1, 2] (by simp)
    simpa using h

theorem consume_foldl_append {α : Type} (rs : List (WorkerMessage α))
    (r : WorkerMessage α) :
    consumeAll (rs ++ [r]) = consumeStep (consumeAll rs) r := by
  unfold consumeAll
  rw [List.foldl_append, List.foldl_cons, List.foldl_nil]

/-- `latestCompletedRef.current` after an error-free trace bounds `X` exactly
when every delivered id does. -/
theorem consume_fst_le_iff {α : Type} :
    ∀ (rs : List (WorkerMessage α)), (∀ m ∈ rs, m.error = false) →
      ∀ X, ((consumeAll rs).1 ≤ X ↔ ∀ m ∈ rs, m.id ≤ X) := by
  intro rs
  induction rs using List.reverseRecOn with
  | nil =>
    intro _ X
    constructor
    · intro _ m hm
      exact absurd hm (List.not_mem_nil m)
    · intro _
      exact Nat.zero_le X
  | append_singleton t r ih =>
    intro herr X
    have herrt : ∀ m ∈ t, m.error = false := fun m hm => herr m (by simp [hm])
    have hre : r.error = false := herr r (by simp)
    rw [consume_foldl_append]
    unfold consumeStep
    simp only [hre, Bool.false_eq_true, if_false]
    by_cases hlt : r.id < (consumeAll t).1
    · rw [if_pos hlt]
      constructor
      · intro hfst m hm
        rcases List.mem_append.mp hm with hm | hm
        · exact ((ih herrt X).mp hfst) m hm
        · have hmr : m = r := by simpa using hm
          subst hmr
          omega
      · intro hall
        exact (ih herrt X).mpr (fun m hm => hall m (by simp [hm]))
    · rw [if_neg hlt]
      dsimp only
      constructor
      · intro hX m hm
        rcases List.mem_append.mp hm with hm | hm
        · have h1 : (consumeAll t).1 ≤ X := le_trans (not_lt.mp hlt) hX
          exact ((ih herrt X).mp h1) m hm
        · have hmr : m = r := by simpa using hm
          subst hmr
          exact hX
      · intro hall
        exact hall r (by simp)

/-- **C8, confirmed.**  A newly delivered (non-error) response is applied —
its payload appended to the applied list and its id recorded — exactly when
its id is at least every previously delivered id; otherwise the state is
unchanged (the response is silently discarded). -/
theorem C8_stale_discard {α : Type} (rs : List (WorkerMessage α))
    (r : WorkerMessage α)
    (herr : ∀ m ∈ rs, m.error = false) (hre : r.error = false) :
    (consumeAll (rs ++ [r])).2 =
      (if ∀ m ∈ rs, m.id ≤ r.id then (consumeAll rs).2 ++ [(r.id, r.payload)]
       else (consumeAll rs).2) := by
  rw [consume_foldl_append]
  unfold consumeStep
  simp only [hre, Bool.false_eq_true, if_false]
  by_cases hlt : r.id < (consumeAll rs).1
  · have hno : ¬ (∀ m ∈ rs, m.id ≤ r.id) := by
      intro hall
      have h2 := (consume_fst_le_iff rs herr r.id).mpr hall
      omega
    rw [if_pos hlt, if_neg hno]
  · have hyes : ∀ m ∈ rs, m.id ≤ r.id :=
      (consume_fst_le_iff rs herr r.id).mp (not_lt.mp hlt)
    rw [if_neg hlt, if_pos hyes]

/-- Witness for `C8_stale_discard`: responses `[2, 1]` delivered in that
order — id 1 is discarded and only id 2's payload is ever applied. -/
theorem C8_stale_discard_witness :
    ((∀ m ∈ [(⟨2, 0, false⟩ : WorkerMessage ℕ)], m.error = false) ∧
      (⟨1, 1, false⟩ : WorkerMessage ℕ).error = false) ∧
    (consumeAll ([(⟨2, 0, false⟩ : WorkerMessage ℕ)] ++ [⟨1, 1, false⟩])).2 =
      (consumeAll [(⟨2, 0, false⟩ : WorkerMessage ℕ)]).2 ∧
    (consumeAll [(⟨2, 0, false⟩ : WorkerMessage ℕ), ⟨1, 1, false⟩]).2 =
      [(2, 0)] := by
  refine ⟨⟨?_, rfl⟩, ?_, ?_⟩
  · intro m hm
    have hmr : m = ⟨2, 0, false⟩ := by simpa using hm
    subst hmr
    rfl
  · have h := C8_stale_discard [(⟨2, 0, false⟩ : WorkerMessage ℕ)] ⟨1, 1, false⟩
      (by
        intro m hm
        have hmr : m = ⟨2, 0, false⟩ := by simpa using hm
        subst hmr
        rfl) rfl
    rw [h, if_neg (by decide)]
  · rfl

/-- Witness for `C10_nothing_to_draw`. -/
theorem C10_nothing_to_draw_witness :
    (([] : List (List (ℚ × ℚ))) = [] ∨ (none : Option BinaryBitmap) = none) ∧
    workerSuccessResponse 7 [] none (fun b => b) (fun _ => []) (fun _ => "svg") =
      ⟨7, some [], some "", none⟩ :=
  ⟨Or.inl rfl,
    C10_nothing_to_draw 7 [] none (fun b => b) (fun _ => []) (fun _ => "svg")
      (Or.inl rfl)⟩

end TreeDangler
